import Mathlib

/-!
# The source-manager adapter of vsolver (`sm_adapter.go`)

A shallow embedding of `src/vendor/github.com/sdboyer/vsolver/sm_adapter.go`:
the per-solve version-list cache, the pairing helpers, the authoritative
`matches` / `matchesAny` / `intersect` operations, the `versionTypeUnion`
constraint and the two version sorters.

Conventions of the embedding.

* The adapter is a mutable Go struct.  Every operation is a Lean function that
  takes the adapter value and returns its result together with the adapter
  value afterwards.
* The SourceManager is an interface implemented outside the package.  Its
  `ListVersions` method is an oracle that may answer differently at every call:
  it receives the history of the calls made so far.  The adapter value carries
  that history in the ghost field `calls`.
* A Go panic is the `Except.error` result.
* `sort.Sort` belongs to the Go standard library.  It is a parameter of the
  embedding; theorems that depend on what it does assume its documented
  contract (`SortContract`).  `sortSmall` is what the library of the releases
  1.7 to 1.18 does on a slice of at most 12 elements.
* The methods `Matches`, `MatchesAny` and `Intersect` of the constraint types
  other than `versionTypeUnion` live in files of the package that are not part
  of the source slice.  They are the parameter `LocalOps`; `specOps` is a model
  of them written from the specification.
-/

namespace Vsolver

/-! ## Data model -/

/-- The name under which the SourceManager knows a project. -/
abbrev ProjectName := String

/-- The identifier the solver uses for a project: a local and a network name. -/
structure ProjectIdentifier where
  LocalName : ProjectName
  NetworkName : String
  deriving DecidableEq, Repr

/-- An immutable commit identifier (Go: `type Revision string`). -/
abbrev Revision := String

/-- Modelled from the spec: the semantic version carried by a `semVersion`
(the semver library is not part of the source slice): the three version
numbers and the pre-release tag, which is empty for a full release. -/
structure SemVer where
  major : Nat
  minor : Nat
  patch : Nat
  pre : String
  deriving DecidableEq, Repr

/-- Modelled from the spec: a semver range (the range type of the semver
library is not part of the source slice), as the half-open interval of
versions from `lo` up to, and excluding, `hi`. -/
structure SemverRange where
  lo : SemVer
  hi : SemVer
  deriving DecidableEq, Repr

/-- The symbolic versions whose revision is not resolved: the three
implementations of the Go interface `UnpairedVersion`. -/
inductive UnpairedVersion where
  | branchVersion (s : String)
  | plainVersion (s : String)
  | semVersion (sv : SemVer)
  deriving DecidableEq, Repr

/-- The only implementation of the Go interface `PairedVersion`: a symbolic
version `v` together with the revision `r` it resolves to. -/
structure versionPair where
  v : UnpairedVersion
  r : Revision
  deriving DecidableEq, Repr

/-- The method `Underlying` of a paired version. -/
def versionPair.Underlying (p : versionPair) : Revision := p.r

/-- The versions that a version list and a union hold: a revision, an
unpaired version or a paired version. -/
inductive Ver where
  | rev (r : Revision)
  | unpaired (u : UnpairedVersion)
  | paired (p : versionPair)
  deriving DecidableEq, Repr

/-- A value of the Go interface `Version`: one of the three kinds of `Ver`, or
a `versionTypeUnion` (Go: `type versionTypeUnion []Version`), which implements
the interface too.  The adapter only ever builds unions of revisions, unpaired
and paired versions, so the members of a union are `Ver`s. -/
inductive Version where
  | single (v : Ver)
  | union (av : List Ver)
  deriving DecidableEq, Repr

/-- A value of the Go interface `Constraint`: any version, a semver range,
`none` or `any`. -/
inductive Constraint where
  | version (v : Version)
  | semverConstraint (c : SemverRange)
  | noneConstraint
  | anyConstraint
  deriving DecidableEq, Repr

/-- A single version, seen as a constraint. -/
abbrev Ver.toC (v : Ver) : Constraint := .version (.single v)

/-- The Go comparison `rc != none` against the package variable `none`. -/
def Constraint.isNone : Constraint → Bool
  | .noneConstraint => true
  | _ => false

/-! ## The constraint methods -/

/-- The methods `Matches`, `MatchesAny` and `Intersect` of every constraint
type other than `versionTypeUnion`.  They are declared in files of the package
outside the source slice, so the adapter is embedded over an arbitrary
implementation of them.  The functions are only ever applied to a receiver
that is not a union. -/
structure LocalOps where
  Matches : Constraint → Version → Bool
  MatchesAny : Constraint → Constraint → Bool
  Intersect : Constraint → Constraint → Constraint

/-- The first result of `f` that is not `none`, trying the elements of the
list in order; `none` when there is no such result.  This is the shape of the
loops of `versionTypeUnion.Intersect`. -/
def firstNonNone {α : Type} (f : α → Constraint) : List α → Constraint
  | [] => .noneConstraint
  | x :: xs => if (f x).isNone then firstNonNone f xs else f x

/-- Method `versionTypeUnion.Matches` (lines 334-350). -/
def versionTypeUnion.Matches (L : LocalOps) (av : List Ver) (v : Version) : Bool :=
  match v with
  | .union av2 => av.any fun v1 => av2.any fun v2 => L.Matches v1.toC (.single v2)
  | .single _ => av.any fun v1 => L.Matches v1.toC v

/-- Method `versionTypeUnion.MatchesAny` (lines 355-371). -/
def versionTypeUnion.MatchesAny (L : LocalOps) (av : List Ver) (c : Constraint) : Bool :=
  match c with
  | .version (.union av2) => av.any fun v1 => av2.any fun v2 => L.MatchesAny v1.toC v2.toC
  | _ => av.any fun v1 => L.MatchesAny v1.toC c

/-- Method `versionTypeUnion.Intersect` (lines 380-396). -/
def versionTypeUnion.Intersect (L : LocalOps) (av : List Ver) (c : Constraint) : Constraint :=
  match c with
  | .version (.union av2) =>
    firstNonNone (fun v1 => firstNonNone (fun v2 => L.Intersect v1.toC v2.toC) av2) av
  | _ => firstNonNone (fun v1 => L.Intersect v1.toC c) av

/-- The interface call `c.Matches(v)`: dispatch on the dynamic type of `c`. -/
def Constraint.Matches (L : LocalOps) (c : Constraint) (v : Version) : Bool :=
  match c with
  | .version (.union av) => versionTypeUnion.Matches L av v
  | _ => L.Matches c v

/-- The interface call `c.MatchesAny(c2)`. -/
def Constraint.MatchesAny (L : LocalOps) (c c2 : Constraint) : Bool :=
  match c with
  | .version (.union av) => versionTypeUnion.MatchesAny L av c2
  | _ => L.MatchesAny c c2

/-- The interface call `c.Intersect(c2)`. -/
def Constraint.Intersect (L : LocalOps) (c c2 : Constraint) : Constraint :=
  match c with
  | .version (.union av) => versionTypeUnion.Intersect L av c2
  | _ => L.Intersect c c2

/-! ## The source manager and the adapter -/

/-- The error value a SourceManager call may return. -/
abbrev SMError := String

/-- One `ListVersions` call made on the SourceManager: the key asked for and
whether the call succeeded. -/
abbrev SMCall := ProjectName × Bool

/-- The SourceManager, as far as the adapter uses it.  `ListVersions` receives
the calls made before, so its answer may change from one call to the next. -/
structure SourceManager where
  ListVersions : List SMCall → ProjectName → Except SMError (List Ver)
  RepoExists : ProjectName → Except SMError Bool
  VendorCodeExists : ProjectName → Except SMError Bool

/-- What the adapter is built over: the constraint methods, the
SourceManager and the `sort.Sort` of the standard library, which receives the
`Less` of the sorter. -/
structure Env where
  ops : LocalOps
  sm : SourceManager
  sort : (Ver → Ver → Bool) → List Ver → List Ver

/-- The adapter (lines 20-31): the sort direction and the map from project
name to version list, with the ghost history of the `ListVersions` calls. -/
structure smAdapter where
  sortdown : Bool
  vlists : ProjectName → Option (List Ver)
  calls : List SMCall

/-- A new adapter: nothing cached, no call made. -/
def smAdapter.new (sortdown : Bool) : smAdapter :=
  { sortdown := sortdown, vlists := fun _ => none, calls := [] }

/-- The map assignment `c.vlists[k] = vl`. -/
def setList (m : ProjectName → Option (List Ver)) (k : ProjectName) (vl : List Ver) :
    ProjectName → Option (List Ver) :=
  fun k2 => if k2 = k then some vl else m k2

/-! ## The version sorters -/

/-- Modelled from the spec: the method `String` of an unpaired version
(declared outside the source slice): the string form of a branch or plain tag
is the name it carries; a semantic version prints its numbers and, after a
dash, its pre-release tag. -/
def UnpairedVersion.String : UnpairedVersion → String
  | .branchVersion s => s
  | .plainVersion s => s
  | .semVersion sv =>
    let base := toString sv.major ++ "." ++ toString sv.minor ++ "." ++ toString sv.patch
    if sv.pre = "" then base else base ++ "-" ++ sv.pre

/-- Modelled from the spec: the method `String` of a version (declared outside
the source slice): a revision prints its identifier, a paired version its
symbolic part. -/
def Ver.String : Ver → String
  | .rev r => r
  | .unpaired u => u.String
  | .paired p => p.v.String

/-- Modelled from the spec: the method `Prerelease` of the semver library. -/
def SemVer.Prerelease (sv : SemVer) : String := sv.pre

/-- Modelled from the spec: the order of two pre-release tags of versions with
equal numbers, by semver precedence: a pre-release is lower than the full
release (the empty tag), two pre-releases compare as strings. -/
def preLess (a b : String) : Bool :=
  if a = "" then false else if b = "" then true else decide (a < b)

/-- Modelled from the spec: the method `LessThan` of the semver library
("lesser semver"): semver precedence on the three numbers, then on the
pre-release tag. -/
def SemVer.LessThan (v o : SemVer) : Bool :=
  if v.major ≠ o.major then decide (v.major < o.major)
  else if v.minor ≠ o.minor then decide (v.minor < o.minor)
  else if v.patch ≠ o.patch then decide (v.patch < o.patch)
  else preLess v.pre o.pre

/-- Modelled from the spec: the method `GreaterThan` of the semver library
("greater semver"). -/
def SemVer.GreaterThan (v o : SemVer) : Bool := o.LessThan v

/-- Modelled from the spec: the rank of a version kind in the function
`compareVersionType`, which is declared outside the source slice; section 4.6
gives the order semver, plain tag, branch, revision.  A paired version has no
rank: the sorters unwrap it before they compare. -/
def kindRank : Ver → Option Nat
  | .unpaired (.semVersion _) => some 0
  | .unpaired (.plainVersion _) => some 1
  | .unpaired (.branchVersion _) => some 2
  | .rev _ => some 3
  | .paired _ => none

/-- Modelled from the spec: `compareVersionType`, the fixed kind-ordering
function of section 4.6: negative when the kind of `l` comes first, positive
when that of `r` does, zero for the same kind.  It has no answer (it panics)
on a kind it does not know. -/
def compareVersionType (l r : Ver) : Option Int :=
  match kindRank l, kindRank r with
  | some a, some b => some (if a < b then -1 else if b < a then 1 else 0)
  | _, _ => none

/-- The unwrapping at the head of both `Less` methods (lines 422-427): a
`versionPair` is replaced by its symbolic part. -/
def unpair : Ver → Ver
  | .paired p => .unpaired p.v
  | v => v

/-- The body shared by `upgradeVersionSorter.Less` (lines 419-454) and
`downgradeVersionSorter.Less` (lines 456-491), which differ in the last
comparison only: `semCmp` is `GreaterThan` for the first and `LessThan` for the
second.  The result is `none` where the Go code panics (an unknown kind, or a
failed type assertion to `semVersion`). -/
def sorterLess (semCmp : SemVer → SemVer → Bool) (vi vj : Ver) : Option Bool :=
  let l := unpair vi
  let r := unpair vj
  match compareVersionType l r with
  | none => none
  | some t =>
    if t = -1 then some true
    else if t = 1 then some false
    else if t = 0 then
      match l with
      | .rev _ | .unpaired (.branchVersion _) | .unpaired (.plainVersion _) =>
        some (decide (l.String < r.String))
      | .unpaired (.semVersion lsv) =>
        match r with
        | .unpaired (.semVersion rsv) =>
          let lpre := decide (lsv.Prerelease = "")
          let rpre := decide (rsv.Prerelease = "")
          if (lpre && !rpre) || (!lpre && rpre) then some lpre
          else some (semCmp lsv rsv)
        | _ => none
      | .paired _ => none
    else none

/-- Method `upgradeVersionSorter.Less`, on the two elements compared; `none` is a
panic. -/
def upgradeVersionSorter.Less? (vi vj : Ver) : Option Bool :=
  sorterLess SemVer.GreaterThan vi vj

/-- Method `downgradeVersionSorter.Less`, on the two elements compared; `none` is a
panic. -/
def downgradeVersionSorter.Less? (vi vj : Ver) : Option Bool :=
  sorterLess SemVer.LessThan vi vj

/-- Method `upgradeVersionSorter.Less` as the boolean function handed to the sort
(it never panics on a `Ver`, see `sorterLess_isSome`). -/
def upgradeVersionSorter.Less (vi vj : Ver) : Bool :=
  (upgradeVersionSorter.Less? vi vj).getD false

/-- Method `downgradeVersionSorter.Less` as the boolean function handed to the sort. -/
def downgradeVersionSorter.Less (vi vj : Ver) : Bool :=
  (downgradeVersionSorter.Less? vi vj).getD false

/-- A strict weak ordering: what a `Less` method has to be for `sort.Sort` to
produce a sorted slice. -/
structure StrictWeak (lt : Ver → Ver → Bool) : Prop where
  irrefl : ∀ a, lt a a = false
  trans : ∀ a b c, lt a b = true → lt b c = true → lt a c = true
  negTrans : ∀ a b c, lt a b = false → lt b c = false → lt a c = false

/-- The documented contract of `sort.Sort`: it rearranges the slice with swaps
only, so the result is a permutation of the input, and when `Less` is a strict
weak ordering the result is in ascending order: no element is less than one
that precedes it.  Stability is not part of the contract. -/
structure SortContract (sort : (Ver → Ver → Bool) → List Ver → List Ver) : Prop where
  perm : ∀ lt l, (sort lt l).Perm l
  sorted : ∀ lt l, StrictWeak lt → (sort lt l).Pairwise (fun a b => lt b a = false)

/-! ## The adapter operations -/

/-- Method `smAdapter.key` (lines 37-44). -/
def smAdapter.key (id : ProjectIdentifier) : ProjectName :=
  let k := id.NetworkName
  if k = "" then id.LocalName else k

/-- Method `smAdapter.listVersions` (lines 46-67): the list and error returned, and
the adapter afterwards. -/
def smAdapter.listVersions (E : Env) (a : smAdapter) (id : ProjectIdentifier) :
    Except SMError (List Ver) × smAdapter :=
  let k := smAdapter.key id
  match a.vlists k with
  | some vl => (.ok vl, a)
  | none =>
    match E.sm.ListVersions a.calls k with
    | .error err => (.error err, { a with calls := a.calls ++ [(k, false)] })
    | .ok vl =>
      let sorted :=
        if a.sortdown then E.sort downgradeVersionSorter.Less vl
        else E.sort upgradeVersionSorter.Less vl
      (.ok sorted, { a with vlists := setList a.vlists k sorted, calls := a.calls ++ [(k, true)] })

/-- Method `smAdapter.repoExists` (lines 69-72). -/
def smAdapter.repoExists (E : Env) (a : smAdapter) (id : ProjectIdentifier) :
    Except SMError Bool × smAdapter :=
  (E.sm.RepoExists (smAdapter.key id), a)

/-- Method `smAdapter.vendorCodeExists` (lines 74-77). -/
def smAdapter.vendorCodeExists (E : Env) (a : smAdapter) (id : ProjectIdentifier) :
    Except SMError Bool × smAdapter :=
  (E.sm.VendorCodeExists (smAdapter.key id), a)

/-- The loop of `pairVersion` (lines 86-94): the first paired version of the
list that matches `v`. -/
def firstPair (L : LocalOps) (v : UnpairedVersion) : List Ver → Option versionPair
  | [] => none
  | .paired p :: vl =>
    if Constraint.Matches L (Ver.toC (.paired p)) (.single (.unpaired v)) then some p
    else firstPair L v vl
  | _ :: vl => firstPair L v vl

/-- Method `smAdapter.pairVersion` (lines 79-95); `none` is the nil result. -/
def smAdapter.pairVersion (E : Env) (a : smAdapter) (id : ProjectIdentifier)
    (v : UnpairedVersion) : Option versionPair × smAdapter :=
  match smAdapter.listVersions E a id with
  | (.error _, a1) => (none, a1)
  | (.ok vl, a1) => (firstPair E.ops v vl, a1)

/-- The loop of `pairRevision` (lines 105-111): the paired versions of the
list that match `r`, in the order of the list. -/
def pairsOf (L : LocalOps) (r : Revision) : List Ver → List Ver
  | [] => []
  | .paired pv :: vl =>
    if Constraint.Matches L (Ver.toC (.paired pv)) (.single (.rev r)) then
      .paired pv :: pairsOf L r vl
    else pairsOf L r vl
  | _ :: vl => pairsOf L r vl

/-- Method `smAdapter.pairRevision` (lines 97-114); the nil slice is the empty list. -/
def smAdapter.pairRevision (E : Env) (a : smAdapter) (id : ProjectIdentifier)
    (r : Revision) : List Ver × smAdapter :=
  match smAdapter.listVersions E a id with
  | (.error _, a1) => ([], a1)
  | (.ok vl, a1) => (.rev r :: pairsOf E.ops r vl, a1)

/-- Method `smAdapter.matches` (lines 120-226): the boolean returned, or the panic,
and the adapter afterwards. -/
def smAdapter.matches (E : Env) (a : smAdapter) (id : ProjectIdentifier) (c2 : Constraint)
    (v : Version) : Except String Bool × smAdapter :=
  if Constraint.Matches E.ops c2 v then (.ok true, a)
  else
    match v with
    | .single (.paired tv) =>
      match c2 with
      | .version (.single (.paired _)) => (.ok false, a)
      | .version (.single (.rev _)) => (.ok false, a)
      | .noneConstraint => (.ok false, a)
      | .version (.single (.unpaired tc)) =>
        match smAdapter.pairVersion E a id tc with
        | (none, a1) => (.ok false, a1)
        | (some pv, a1) => (.ok (Constraint.Matches E.ops (Ver.toC (.paired pv)) v), a1)
      | .semverConstraint tc =>
        match smAdapter.pairRevision E a id tv.Underlying with
        | (l, a1) =>
          (.ok (l.any fun pv => Constraint.Matches E.ops (.semverConstraint tc) (.single pv)), a1)
      | _ => (.ok false, a)
    | .single (.rev tv) =>
      match c2 with
      | .version (.single (.paired _)) => (.ok false, a)
      | .version (.single (.rev _)) => (.ok false, a)
      | .noneConstraint => (.ok false, a)
      | .version (.single (.unpaired tc)) =>
        match smAdapter.pairVersion E a id tc with
        | (none, a1) => (.ok false, a1)
        | (some pv, a1) => (.ok (Constraint.Matches E.ops (Ver.toC (.paired pv)) v), a1)
      | .semverConstraint tc =>
        match smAdapter.pairRevision E a id tv with
        | (l, a1) =>
          (.ok (l.any fun pv => Constraint.Matches E.ops (.semverConstraint tc) (.single pv)), a1)
      | _ => (.ok false, a)
    | .single (.unpaired tv) =>
      match c2 with
      | .noneConstraint => (.ok false, a)
      | .version (.single (.rev _)) | .version (.single (.paired _)) =>
        match smAdapter.pairVersion E a id tv with
        | (none, a1) => (.ok false, a1)
        | (some pv, a1) => (.ok (Constraint.Matches E.ops c2 (.single (.paired pv))), a1)
      | .version (.single (.unpaired tc)) =>
        match smAdapter.pairVersion E a id tv with
        | (none, a1) => (.ok false, a1)
        | (some pv, a1) =>
          match smAdapter.pairVersion E a1 id tc with
          | (none, a2) => (.ok false, a2)
          | (some pc, a2) =>
            (.ok (Constraint.Matches E.ops (Ver.toC (.paired pc)) (.single (.paired pv))), a2)
      | .semverConstraint _ =>
        match smAdapter.pairVersion E a id tv with
        | (none, a1) => (.ok false, a1)
        | (some pv, a1) =>
          match smAdapter.pairRevision E a1 id pv.Underlying with
          | (l, a2) => (.ok (l.any fun ttv => Constraint.Matches E.ops c2 (.single ttv)), a2)
      | _ => (.ok false, a)
    | .union _ => (.error "unreachable", a)

/-- Method `smAdapter.vtu` (lines 282-298); the nil union is the empty list. -/
def smAdapter.vtu (E : Env) (a : smAdapter) (id : ProjectIdentifier) (v : Version) :
    List Ver × smAdapter :=
  match v with
  | .single (.rev tv) => smAdapter.pairRevision E a id tv
  | .single (.paired tv) => smAdapter.pairRevision E a id tv.Underlying
  | .single (.unpaired tv) =>
    match smAdapter.pairVersion E a id tv with
    | (none, a1) => ([.unpaired tv], a1)
    | (some pv, a1) => smAdapter.pairRevision E a1 id pv.Underlying
  | .union _ => ([], a)

/-- The coercion shared by `matchesAny` and `intersect` (lines 236-247 and
261-272): a constraint that is a version becomes its union, any other
constraint is kept. -/
def smAdapter.coerce (E : Env) (a : smAdapter) (id : ProjectIdentifier) (c : Constraint) :
    Constraint × smAdapter :=
  match c with
  | .version v1 =>
    match smAdapter.vtu E a id v1 with
    | (u, a1) => (.version (.union u), a1)
  | _ => (c, a)

/-- Method `smAdapter.matchesAny` (lines 229-250). -/
def smAdapter.matchesAny (E : Env) (a : smAdapter) (id : ProjectIdentifier)
    (c1 c2 : Constraint) : Bool × smAdapter :=
  if Constraint.MatchesAny E.ops c1 c2 then (true, a)
  else
    match smAdapter.coerce E a id c1 with
    | (uc1, a1) =>
      match smAdapter.coerce E a1 id c2 with
      | (uc2, a2) => (Constraint.MatchesAny E.ops uc1 uc2, a2)

/-- Method `smAdapter.intersect` (lines 253-275). -/
def smAdapter.intersect (E : Env) (a : smAdapter) (id : ProjectIdentifier)
    (c1 c2 : Constraint) : Constraint × smAdapter :=
  let rc := Constraint.Intersect E.ops c1 c2
  if rc.isNone then
    match smAdapter.coerce E a id c1 with
    | (uc1, a1) =>
      match smAdapter.coerce E a1 id c2 with
      | (uc2, a2) => (Constraint.Intersect E.ops uc1 uc2, a2)
  else (rc, a)

/-! ## A model of the constraint methods, from the specification -/

/-- Modelled from the spec: membership of a semantic version in a semver range
(the range check of the semver library is not part of the source slice). -/
def SemverRange.check (c : SemverRange) (sv : SemVer) : Bool :=
  !(sv.LessThan c.lo) && sv.LessThan c.hi

/-- Modelled from the spec: whether two semver ranges share a version. -/
def SemverRange.overlaps (c d : SemverRange) : Bool :=
  c.lo.LessThan d.hi && d.lo.LessThan c.hi

/-- Modelled from the spec: the range common to two semver ranges. -/
def SemverRange.inter (c d : SemverRange) : SemverRange :=
  { lo := if c.lo.LessThan d.lo then d.lo else c.lo,
    hi := if c.hi.LessThan d.hi then c.hi else d.hi }

/-- Modelled from the spec: `Matches` of a constraint that is not a union, on
a version that is not a union (these methods are declared outside the source
slice).  Section 3: a version used as a constraint matches only itself or its
alias, the versions it shares the symbolic name or the revision with; a
semver range matches the semantic versions in the range, bare or paired, and
never a revision; `none` matches nothing and `any` matches everything. -/
def specMatchesVer (c : Constraint) (v : Ver) : Bool :=
  match c, v with
  | .anyConstraint, _ => true
  | .noneConstraint, _ => false
  | .semverConstraint c, .unpaired (.semVersion sv) => c.check sv
  | .semverConstraint c, .paired p =>
    match p.v with
    | .semVersion sv => c.check sv
    | _ => false
  | .semverConstraint _, _ => false
  | .version (.single (.rev r)), .rev r2 => decide (r = r2)
  | .version (.single (.rev r)), .paired p => decide (r = p.r)
  | .version (.single (.rev _)), .unpaired _ => false
  | .version (.single (.unpaired u)), .unpaired u2 => decide (u = u2)
  | .version (.single (.unpaired u)), .paired p => decide (u = p.v)
  | .version (.single (.unpaired _)), .rev _ => false
  | .version (.single (.paired p)), .rev r => decide (p.r = r)
  | .version (.single (.paired p)), .paired p2 => decide (p.r = p2.r)
  | .version (.single (.paired p)), .unpaired u => decide (p.v = u)
  | .version (.union _), _ => false

/-- Modelled from the spec: `Matches` of a constraint that is not a union.
Section 3: `any` matches everything, a union of any members included; for
every other constraint a union given as the version is matched when one of its
members is. -/
def specMatches (c : Constraint) (v : Version) : Bool :=
  match c, v with
  | .anyConstraint, _ => true
  | _, .single x => specMatchesVer c x
  | _, .union av => av.any fun x => specMatchesVer c x

/-- Modelled from the spec: `MatchesAny` of a constraint that is not a union,
on a constraint that is not a union: whether some version satisfies both. -/
def specMatchesAnyC (c c2 : Constraint) : Bool :=
  match c, c2 with
  | .noneConstraint, _ => false
  | _, .noneConstraint => false
  | .anyConstraint, _ => true
  | _, .anyConstraint => true
  | .semverConstraint r, .semverConstraint r2 => r.overlaps r2
  | _, .version (.single v) => specMatchesVer c v
  | .version (.single v), .semverConstraint r => specMatchesVer (.semverConstraint r) v
  | _, _ => false

/-- Modelled from the spec: `MatchesAny` of a constraint that is not a union.
Section 3: `any` matches everything, a union of any members included; for
every other constraint a union given as the argument is matched when one of
its members is. -/
def specMatchesAny (c c2 : Constraint) : Bool :=
  match c, c2 with
  | .anyConstraint, .version (.union _) => true
  | _, .version (.union av) => av.any fun x => specMatchesAnyC c x.toC
  | _, _ => specMatchesAnyC c c2

/-- Modelled from the spec: `Intersect` of a constraint that is not a union,
on a constraint that is not a union.  Section 3 and 4.4: the intersection
with `none` is `none`, the intersection of `c` with `any` is `c`, and two
constraints without a common version intersect to `none`. -/
def specIntersectC (c c2 : Constraint) : Constraint :=
  match c, c2 with
  | .noneConstraint, _ => .noneConstraint
  | _, .noneConstraint => .noneConstraint
  | .anyConstraint, _ => c2
  | _, .anyConstraint => c
  | .semverConstraint r, .semverConstraint r2 =>
    if r.overlaps r2 then .semverConstraint (r.inter r2) else .noneConstraint
  | _, .version (.single v) => if specMatchesVer c v then c2 else .noneConstraint
  | .version (.single v), .semverConstraint r =>
    if specMatchesVer (.semverConstraint r) v then c else .noneConstraint
  | _, _ => .noneConstraint

/-- Modelled from the spec: `Intersect` of a constraint that is not a union.
With a union as the argument the result is the first intersection with a
member that is not `none`. -/
def specIntersect (c c2 : Constraint) : Constraint :=
  match c, c2 with
  | .noneConstraint, _ => .noneConstraint
  | .anyConstraint, _ => c2
  | _, .version (.union av) => firstNonNone (fun x => specIntersectC c x.toC) av
  | _, _ => specIntersectC c c2

/-- Modelled from the spec: the constraint methods declared outside the source
slice, as sections 3 and 4.4 describe them. -/
def specOps : LocalOps :=
  { Matches := specMatches, MatchesAny := specMatchesAny, Intersect := specIntersect }

/-! ## Fixtures of the end-to-end scenarios -/

/-- An insertion sort: one implementation of the contract of `sort.Sort`. -/
def refSort (lt : Ver → Ver → Bool) (l : List Ver) : List Ver :=
  l.insertionSort (fun a b => lt b a = false)

/-- A SourceManager whose `ListVersions` always succeeds with the list `vl`. -/
def constSM (vl : List Ver) : SourceManager :=
  { ListVersions := fun _ _ => .ok vl,
    RepoExists := fun _ => .ok true,
    VendorCodeExists := fun _ => .ok false }

/-- A SourceManager whose `ListVersions` fails at its first call and succeeds
with the list `vl` from the second call on. -/
def flakySM (vl : List Ver) : SourceManager :=
  { ListVersions := fun h _ => if h.isEmpty then .error "network" else .ok vl,
    RepoExists := fun _ => .ok true,
    VendorCodeExists := fun _ => .ok false }

/-- A SourceManager whose `ListVersions` always fails. -/
def failSM : SourceManager :=
  { ListVersions := fun _ _ => .error "network",
    RepoExists := fun _ => .ok true,
    VendorCodeExists := fun _ => .ok false }

/-- The semantic version `major.minor.patch`. -/
def sv (major minor patch : Nat) : SemVer :=
  { major := major, minor := minor, patch := patch, pre := "" }

/-- The range `^1.0.0`: from 1.0.0 up to, and excluding, 2.0.0. -/
def caret1 : SemverRange := { lo := sv 1 0 0, hi := sv 2 0 0 }

/-- The tag `v1.2.0` at revision `A`. -/
def tagV120 : Ver := .paired { v := .semVersion (sv 1 2 0), r := "A" }

/-- The branch `master` at revision `B`. -/
def masterB : Ver := .paired { v := .branchVersion "master", r := "B" }

/-- The branch `master` at revision `A`. -/
def masterA : Ver := .paired { v := .branchVersion "master", r := "A" }

/-- The version list of scenarios S1 to S3. -/
def fixtureList : List Ver := [tagV120, masterB, .rev "A"]

/-- The semantic version `major.minor.patch-pre` as a bare tag. -/
def semTag (major minor patch : Nat) (pre : String) : Ver :=
  .unpaired (.semVersion { major := major, minor := minor, patch := patch, pre := pre })

/-- The input of scenarios S4 and S5: v1.0.0, v2.0.0-alpha, v2.0.0, v1.5.0. -/
def sortInput : List Ver :=
  [semTag 1 0 0 "", semTag 2 0 0 "alpha", semTag 2 0 0 "", semTag 1 5 0 ""]

/-- The expected result of scenario S4 (upgrade sort). -/
def sortedUp : List Ver :=
  [semTag 2 0 0 "", semTag 1 5 0 "", semTag 1 0 0 "", semTag 2 0 0 "alpha"]

/-- The expected result of scenario S5 (downgrade sort). -/
def sortedDown : List Ver :=
  [semTag 1 0 0 "", semTag 1 5 0 "", semTag 2 0 0 "", semTag 2 0 0 "alpha"]

/-- The project of the scenarios. -/
def projP : ProjectIdentifier := { LocalName := "P", NetworkName := "" }

/-- The environment of the scenarios: the modelled constraint methods, a
SourceManager that declares `fixtureList`, and the insertion sort. -/
def fixtureEnv : Env := { ops := specOps, sm := constSM fixtureList, sort := refSort }

/-! ## Sequences of adapter calls -/

/-- One call of an operation of the adapter, with its arguments. -/
inductive Call where
  | list (id : ProjectIdentifier)
  | repo (id : ProjectIdentifier)
  | vendor (id : ProjectIdentifier)
  | pairV (id : ProjectIdentifier) (v : UnpairedVersion)
  | pairR (id : ProjectIdentifier) (r : Revision)
  | test (id : ProjectIdentifier) (c : Constraint) (v : Version)
  | testAny (id : ProjectIdentifier) (c1 c2 : Constraint)
  | inter (id : ProjectIdentifier) (c1 c2 : Constraint)
  | union (id : ProjectIdentifier) (v : Version)

/-- The adapter after one call: `listVersions`, `repoExists`,
`vendorCodeExists`, `pairVersion`, `pairRevision`, `matches` (also when it
panics and the caller recovers), `matchesAny`, `intersect`, `vtu`. -/
def Call.run (E : Env) (a : smAdapter) : Call → smAdapter
  | .list id => (smAdapter.listVersions E a id).2
  | .repo id => (smAdapter.repoExists E a id).2
  | .vendor id => (smAdapter.vendorCodeExists E a id).2
  | .pairV id v => (smAdapter.pairVersion E a id v).2
  | .pairR id r => (smAdapter.pairRevision E a id r).2
  | .test id c v => (smAdapter.matches E a id c v).2
  | .testAny id c1 c2 => (smAdapter.matchesAny E a id c1 c2).2
  | .inter id c1 c2 => (smAdapter.intersect E a id c1 c2).2
  | .union id v => (smAdapter.vtu E a id v).2

/-- The adapter after a sequence of calls. -/
def runAll (E : Env) (a : smAdapter) : List Call → smAdapter
  | [] => a
  | c :: cs => runAll E (Call.run E a c) cs

/-- The adapter `b` is the adapter `a` after some number of `listVersions`
calls: the only way an operation changes the adapter. -/
inductive Grows (E : Env) (a : smAdapter) : smAdapter → Prop where
  | refl : Grows E a a
  | step (b : smAdapter) (id : ProjectIdentifier) :
      Grows E a b → Grows E a (smAdapter.listVersions E b id).2

/-- The invariant of the call history: a key with a successful `ListVersions`
call is cached, and no key has two successful calls. -/
def HistoryOk (a : smAdapter) : Prop :=
  ∀ k, ((k, true) ∈ a.calls → (a.vlists k).isSome = true) ∧ a.calls.count (k, true) ≤ 1

/-! ## The operations as functions of the list seen -/

/-- The adapter has the list of the project: `listVersions` returns a list,
because the list is cached already or because the `ListVersions` call it makes
succeeds. -/
def Steady (E : Env) (id : ProjectIdentifier) (a : smAdapter) : Prop :=
  ∃ vl, (smAdapter.listVersions E a id).1 = .ok vl

/-- The list of the project is not cached, the next `ListVersions` call for
its key fails, and the call right after that failure succeeds. -/
def RetrySucceeds (sm : SourceManager) (id : ProjectIdentifier) (a : smAdapter) : Prop :=
  a.vlists (smAdapter.key id) = none ∧
    (∃ err, sm.ListVersions a.calls (smAdapter.key id) = .error err) ∧
    ∃ vl, sm.ListVersions (a.calls ++ [(smAdapter.key id, false)]) (smAdapter.key id) = .ok vl

/-- The result of `pairVersion` when `listVersions` returns `res`. -/
def pairVersionOf (L : LocalOps) (res : Except SMError (List Ver)) (v : UnpairedVersion) :
    Option versionPair :=
  match res with
  | .error _ => none
  | .ok vl => firstPair L v vl

/-- The result of `pairRevision` when `listVersions` returns `res`. -/
def pairRevisionOf (L : LocalOps) (res : Except SMError (List Ver)) (r : Revision) : List Ver :=
  match res with
  | .error _ => []
  | .ok vl => .rev r :: pairsOf L r vl

/-- The result of `vtu` when every `listVersions` call returns `res`. -/
def vtuOf (L : LocalOps) (res : Except SMError (List Ver)) (v : Version) : List Ver :=
  match v with
  | .single (.rev tv) => pairRevisionOf L res tv
  | .single (.paired tv) => pairRevisionOf L res tv.Underlying
  | .single (.unpaired tv) =>
    match pairVersionOf L res tv with
    | none => [.unpaired tv]
    | some pv => pairRevisionOf L res pv.Underlying
  | .union _ => []

/-- The coercion of `matchesAny` when every `listVersions` call returns
`res`. -/
def coerceOf (L : LocalOps) (res : Except SMError (List Ver)) (c : Constraint) : Constraint :=
  match c with
  | .version v1 => .version (.union (vtuOf L res v1))
  | _ => c

/-! ## Sort keys -/

/-- The part of a semantic version that `LessThan` compares, in the
lexicographic order. -/
def semKey (s : SemVer) : ℕ ×ₗ ℕ ×ₗ ℕ ×ₗ String :=
  toLex (s.major, toLex (s.minor, toLex (s.patch, s.pre)))

/-- The key the downgrade sorter orders by. -/
def downKey (v : Ver) : ℕ ×ₗ String ×ₗ Bool ×ₗ ℕ ×ₗ ℕ ×ₗ ℕ ×ₗ String :=
  match unpair v with
  | .rev r => toLex (3, toLex (r, toLex (false, semKey (sv 0 0 0))))
  | .unpaired (.branchVersion s) => toLex (2, toLex (s, toLex (false, semKey (sv 0 0 0))))
  | .unpaired (.plainVersion s) => toLex (1, toLex (s, toLex (false, semKey (sv 0 0 0))))
  | .unpaired (.semVersion x) => toLex (0, toLex ("", toLex (!decide (x.pre = ""), semKey x)))
  | .paired _ => toLex (4, toLex ("", toLex (false, semKey (sv 0 0 0))))

/-- The key the upgrade sorter orders by. -/
def upKey (v : Ver) : ℕ ×ₗ String ×ₗ Bool ×ₗ (ℕ ×ₗ ℕ ×ₗ ℕ ×ₗ String)ᵒᵈ :=
  match unpair v with
  | .rev r => toLex (3, toLex (r, toLex (false, OrderDual.toDual (semKey (sv 0 0 0)))))
  | .unpaired (.branchVersion s) =>
    toLex (2, toLex (s, toLex (false, OrderDual.toDual (semKey (sv 0 0 0)))))
  | .unpaired (.plainVersion s) =>
    toLex (1, toLex (s, toLex (false, OrderDual.toDual (semKey (sv 0 0 0)))))
  | .unpaired (.semVersion x) =>
    toLex (0, toLex ("", toLex (!decide (x.pre = ""), OrderDual.toDual (semKey x))))
  | .paired _ => toLex (4, toLex ("", toLex (false, OrderDual.toDual (semKey (sv 0 0 0)))))

/-! ## Releases and pre-releases in a version list -/

/-- The semantic version an element of a version list stands for, bare or
wrapped in a `versionPair`; `none` for the other kinds. -/
def semverOf : Ver → Option SemVer
  | .unpaired (.semVersion s) => some s
  | .paired p =>
    match p.v with
    | .semVersion s => some s
    | _ => none
  | _ => none

/-- A semantic version that is a full release: its pre-release tag is empty. -/
def isFullRelease (v : Ver) : Bool :=
  match semverOf v with
  | some s => decide (s.Prerelease = "")
  | none => false

/-- A semantic version that is a pre-release. -/
def isPreRelease (v : Ver) : Bool :=
  match semverOf v with
  | some s => !decide (s.Prerelease = "")
  | none => false

/-- The `Less` of the sorter that the direction selects. -/
def directedLess (sortdown : Bool) : Ver → Ver → Bool :=
  if sortdown then downgradeVersionSorter.Less else upgradeVersionSorter.Less

/-- Every cached list is in the order of the sorter of the adapter. -/
def CacheSorted (a : smAdapter) : Prop :=
  ∀ k vl, a.vlists k = some vl →
    vl.Pairwise (fun x y => directedLess a.sortdown y x = false)

/-! ## Ties of the ordering -/

/-- Two elements are equal under the ordering: neither is less than the
other. -/
def Tied (lt : Ver → Ver → Bool) (x y : Ver) : Prop :=
  lt x y = false ∧ lt y x = false

/-- The inner loop of the insertion sort of the Go standard library,
`for j := i; j > a && data.Less(j, j-1); j-- { data.Swap(j, j-1) }`: the
element `x` at index `i` moves left past every element it is less than.  The
sorted elements before it are given from right to left. -/
def sinkLeft (lt : Ver → Ver → Bool) (x : Ver) : List Ver → List Ver
  | [] => [x]
  | y :: ys => if lt x y then y :: sinkLeft lt x ys else x :: y :: ys

/-- The function `insertionSort` of the Go standard library:
`for i := a + 1; i < b; i++` runs the inner loop on each element in turn. -/
def goInsertionSort (lt : Ver → Ver → Bool) (l : List Ver) : List Ver :=
  (l.foldl (fun before x => sinkLeft lt x before) []).reverse

/-- One step of the pass with gap 6: the elements at the indices `i - 6` and
`i` are swapped when the second is less than the first.  On a slice of at most
12 elements the pairs are disjoint: the first six elements on one side, the
elements after them on the other. -/
def gapSwap (lt : Ver → Ver → Bool) : List Ver → List Ver → List Ver × List Ver
  | f :: fs, b :: bs =>
    if lt b f then (b :: (gapSwap lt fs bs).1, f :: (gapSwap lt fs bs).2)
    else (f :: (gapSwap lt fs bs).1, b :: (gapSwap lt fs bs).2)
  | fs, [] => (fs, [])
  | [], bs => ([], bs)

/-- The Go standard library, releases 1.7 to 1.18 (not part of the
repository): what `sort.Sort` does on a slice of at most 12 elements.  There
`quickSort` skips its partitioning loop (`for b-a > 12`) and runs
`for i := a + 6; i < b; i++ { if data.Less(i, i-6) { data.Swap(i, i-6) } }`,
the pass with gap 6, followed by `insertionSort(data, a, b)`.  On a longer
slice the function still sorts, but it is not what the library does. -/
def sortSmall (lt : Ver → Ver → Bool) (l : List Ver) : List Ver :=
  goInsertionSort lt ((gapSwap lt (l.take 6) (l.drop 6)).1 ++ (gapSwap lt (l.take 6) (l.drop 6)).2)

/-- The bare tag `v1.0.0`. -/
def bareV100 : Ver := semTag 1 0 0 ""

/-- The tag `v1.0.0` paired with revision `A`. -/
def pairedV100 : Ver := .paired { v := .semVersion (sv 1 0 0), r := "A" }

/-- A version list of seven elements with a tie at the front: the bare tag
`v1.0.0`, the same tag paired with revision `A`, then v1.5.0, v1.4.0, v1.3.0,
v1.2.0 and v2.0.0. -/
def tieInput7 : List Ver :=
  [bareV100, pairedV100, semTag 1 5 0 "", semTag 1 4 0 "", semTag 1 3 0 "", semTag 1 2 0 "",
    semTag 2 0 0 ""]

/-! ## Lemmas on the pairing helpers -/

theorem mem_pairsOf (L : LocalOps) (r : Revision) (x : Ver) (vl : List Ver) :
    x ∈ pairsOf L r vl ↔
      ∃ p, x = .paired p ∧ x ∈ vl ∧
        Constraint.Matches L (Ver.toC (.paired p)) (.single (.rev r)) = true := by
  induction vl with
  | nil => simp [pairsOf]
  | cons y ys ih =>
    cases y with
    | rev q =>
      simp only [pairsOf, ih, List.mem_cons]
      constructor
      · rintro ⟨p, hp, hm, hc⟩
        exact ⟨p, hp, Or.inr hm, hc⟩
      · rintro ⟨p, hp, hm, hc⟩
        rcases hm with hm | hm
        · rw [hp] at hm; cases hm
        · exact ⟨p, hp, hm, hc⟩
    | unpaired u =>
      simp only [pairsOf, ih, List.mem_cons]
      constructor
      · rintro ⟨p, hp, hm, hc⟩
        exact ⟨p, hp, Or.inr hm, hc⟩
      · rintro ⟨p, hp, hm, hc⟩
        rcases hm with hm | hm
        · rw [hp] at hm; cases hm
        · exact ⟨p, hp, hm, hc⟩
    | paired q =>
      by_cases hq : Constraint.Matches L (Ver.toC (.paired q)) (.single (.rev r)) = true
      · rw [pairsOf, if_pos hq, List.mem_cons, ih]
        constructor
        · rintro (h | ⟨p, hp, hm, hc⟩)
          · exact ⟨q, h, List.mem_cons.mpr (Or.inl h), hq⟩
          · exact ⟨p, hp, List.mem_cons.mpr (Or.inr hm), hc⟩
        · rintro ⟨p, hp, hm, hc⟩
          rcases List.mem_cons.mp hm with hm | hm
          · exact Or.inl hm
          · exact Or.inr ⟨p, hp, hm, hc⟩
      · rw [pairsOf, if_neg hq, ih]
        constructor
        · rintro ⟨p, hp, hm, hc⟩
          exact ⟨p, hp, List.mem_cons.mpr (Or.inr hm), hc⟩
        · rintro ⟨p, hp, hm, hc⟩
          rcases List.mem_cons.mp hm with hm | hm
          · rw [hp] at hm
            injection hm with hm
            rw [hm] at hc
            exact absurd hc hq
          · exact ⟨p, hp, hm, hc⟩

/-- On a cache miss answered by the SourceManager, `listVersions` returns the
sorted list. -/
theorem listVersions_miss_ok (E : Env) (a : smAdapter) (id : ProjectIdentifier) (vl : List Ver)
    (hc : a.vlists (smAdapter.key id) = none)
    (hs : E.sm.ListVersions a.calls (smAdapter.key id) = .ok vl) :
    (smAdapter.listVersions E a id).1 =
      .ok (if a.sortdown then E.sort downgradeVersionSorter.Less vl
        else E.sort upgradeVersionSorter.Less vl) := by
  simp [smAdapter.listVersions, hc, hs]

/-- The list returned on a cache miss is a permutation of the list supplied. -/
theorem sorted_perm (E : Env) (hsort : SortContract E.sort) (b : Bool) (vl : List Ver) :
    (if b then E.sort downgradeVersionSorter.Less vl
      else E.sort upgradeVersionSorter.Less vl).Perm vl := by
  cases b
  · exact hsort.perm _ _
  · exact hsort.perm _ _

/-- When exactly one paired version of the list matches `v`, `pairVersion`
finds it wherever it stands in the list. -/
theorem firstPair_unique (L : LocalOps) (v : UnpairedVersion) (p : versionPair) (l : List Ver)
    (hmem : Ver.paired p ∈ l)
    (hp : Constraint.Matches L (Ver.toC (.paired p)) (.single (.unpaired v)) = true)
    (huniq : ∀ q, Ver.paired q ∈ l →
      Constraint.Matches L (Ver.toC (.paired q)) (.single (.unpaired v)) = true → q = p) :
    firstPair L v l = some p := by
  induction l with
  | nil => cases hmem
  | cons y ys ih =>
    have hys : ∀ q, Ver.paired q ∈ ys →
        Constraint.Matches L (Ver.toC (.paired q)) (.single (.unpaired v)) = true → q = p :=
      fun q hq hm => huniq q (List.mem_cons_of_mem _ hq) hm
    cases y with
    | rev r =>
      rcases List.mem_cons.mp hmem with h | h
      · cases h
      · simpa [firstPair] using ih h hys
    | unpaired u =>
      rcases List.mem_cons.mp hmem with h | h
      · cases h
      · simpa [firstPair] using ih h hys
    | paired q =>
      by_cases hq : Constraint.Matches L (Ver.toC (.paired q)) (.single (.unpaired v)) = true
      · have hqp : q = p := huniq q (List.mem_cons_self _ _) hq
        rw [firstPair, if_pos hq, hqp]
      · rw [firstPair, if_neg hq]
        rcases List.mem_cons.mp hmem with h | h
        · injection h with h
          rw [h] at hp
          exact absurd hp hq
        · exact ih h hys

/-- In the scenarios the first `listVersions` call returns a permutation of
the fixture list, whatever the sort and the direction. -/
theorem fixture_listVersions (sort : (Ver → Ver → Bool) → List Ver → List Ver)
    (sortdown : Bool) (hsort : SortContract sort) :
    ∃ l a1, smAdapter.listVersions { ops := specOps, sm := constSM fixtureList, sort := sort }
        (smAdapter.new sortdown) projP = (.ok l, a1) ∧ l.Perm fixtureList := by
  cases sortdown
  · exact ⟨_, _, rfl, hsort.perm _ _⟩
  · exact ⟨_, _, rfl, hsort.perm _ _⟩

/-- In a permutation of the fixture list, `master` pairs with revision `B`. -/
theorem fixture_pair_master (l : List Ver) (hperm : l.Perm fixtureList) :
    firstPair specOps (.branchVersion "master") l =
      some { v := .branchVersion "master", r := "B" } := by
  apply firstPair_unique
  · exact hperm.mem_iff.mpr (by simp [fixtureList, masterB])
  · rfl
  · intro q hq hm
    have hq2 := hperm.mem_iff.mp hq
    simp only [fixtureList, tagV120, masterB, List.mem_cons, Ver.paired.injEq,
      List.mem_singleton, reduceCtorEq, List.not_mem_nil, or_false] at hq2
    rcases hq2 with h | h
    · subst h
      exact absurd hm (by decide)
    · exact h

/-- The loop of `versionTypeUnion.Intersect` returns `none` when every
attempt does. -/
theorem firstNonNone_eq_none {α : Type} (f : α → Constraint) (l : List α)
    (h : ∀ x ∈ l, f x = .noneConstraint) : firstNonNone f l = .noneConstraint := by
  induction l with
  | nil => rfl
  | cons x xs ih =>
    have hx : f x = .noneConstraint := h x (List.mem_cons_self _ _)
    have hxs : firstNonNone f xs = .noneConstraint :=
      ih fun y hy => h y (List.mem_cons_of_mem _ hy)
    simp [firstNonNone, hx, hxs, Constraint.isNone]

/-- With the modelled constraint methods, the local intersection of any
constraint, a union included, with `none` is `none`. -/
theorem specOps_intersect_none (c : Constraint) :
    Constraint.Intersect specOps c .noneConstraint = .noneConstraint := by
  cases c with
  | version v =>
    cases v with
    | single x => cases x <;> rfl
    | union av =>
      simp only [Constraint.Intersect, versionTypeUnion.Intersect]
      apply firstNonNone_eq_none
      intro x _
      cases x <;> rfl
  | semverConstraint r => rfl
  | noneConstraint => rfl
  | anyConstraint => rfl

/-- The coercion of `matchesAny` and `intersect` keeps a constraint that is
not a version. -/
theorem coerce_noneConstraint (E : Env) (a : smAdapter) (id : ProjectIdentifier) :
    smAdapter.coerce E a id .noneConstraint = (.noneConstraint, a) := rfl

/-! ## Lemmas on the cache -/

theorem Grows.trans {E : Env} {a b c : smAdapter} (h1 : Grows E a b) (h2 : Grows E b c) :
    Grows E a c := by
  induction h2 with
  | refl => exact h1
  | step d id _ ih => exact Grows.step d id ih

theorem grows_listVersions (E : Env) (a : smAdapter) (id : ProjectIdentifier) :
    Grows E a (smAdapter.listVersions E a id).2 :=
  Grows.step a id Grows.refl

theorem grows_pairVersion (E : Env) (a : smAdapter) (id : ProjectIdentifier)
    (v : UnpairedVersion) : Grows E a (smAdapter.pairVersion E a id v).2 := by
  have h := grows_listVersions E a id
  unfold smAdapter.pairVersion
  cases hl : smAdapter.listVersions E a id with
  | mk res a1 =>
    rw [hl] at h
    cases res <;> exact h

theorem grows_pairRevision (E : Env) (a : smAdapter) (id : ProjectIdentifier) (r : Revision) :
    Grows E a (smAdapter.pairRevision E a id r).2 := by
  have h := grows_listVersions E a id
  unfold smAdapter.pairRevision
  cases hl : smAdapter.listVersions E a id with
  | mk res a1 =>
    rw [hl] at h
    cases res <;> exact h

theorem grows_vtu (E : Env) (a : smAdapter) (id : ProjectIdentifier) (v : Version) :
    Grows E a (smAdapter.vtu E a id v).2 := by
  cases v with
  | union av => exact Grows.refl
  | single x =>
    cases x with
    | rev r => exact grows_pairRevision E a id r
    | paired p => exact grows_pairRevision E a id _
    | unpaired u =>
      have h1 := grows_pairVersion E a id u
      simp only [smAdapter.vtu]
      cases hp : smAdapter.pairVersion E a id u with
      | mk o a1 =>
        rw [hp] at h1
        cases o with
        | none => exact h1
        | some pv => exact h1.trans (grows_pairRevision E a1 id _)

theorem grows_coerce (E : Env) (a : smAdapter) (id : ProjectIdentifier) (c : Constraint) :
    Grows E a (smAdapter.coerce E a id c).2 := by
  cases c with
  | version v => exact grows_vtu E a id v
  | semverConstraint r => exact Grows.refl
  | noneConstraint => exact Grows.refl
  | anyConstraint => exact Grows.refl

theorem grows_matchesAny (E : Env) (a : smAdapter) (id : ProjectIdentifier)
    (c1 c2 : Constraint) : Grows E a (smAdapter.matchesAny E a id c1 c2).2 := by
  unfold smAdapter.matchesAny
  split
  · exact Grows.refl
  · exact (grows_coerce E a id c1).trans (grows_coerce E _ id c2)

theorem grows_intersect (E : Env) (a : smAdapter) (id : ProjectIdentifier)
    (c1 c2 : Constraint) : Grows E a (smAdapter.intersect E a id c1 c2).2 := by
  unfold smAdapter.intersect
  simp only
  split
  · exact (grows_coerce E a id c1).trans (grows_coerce E _ id c2)
  · exact Grows.refl

/-- The adapter after the arm of `matches` that pairs the constraint. -/
theorem grows_arm_pairVersion (E : Env) (a : smAdapter) (id : ProjectIdentifier)
    (tc : UnpairedVersion) (f : versionPair → Bool) :
    Grows E a (match smAdapter.pairVersion E a id tc with
      | (none, a1) => ((.ok false : Except String Bool), a1)
      | (some pv, a1) => (.ok (f pv), a1)).2 := by
  have h := grows_pairVersion E a id tc
  cases hp : smAdapter.pairVersion E a id tc with
  | mk o a1 =>
    rw [hp] at h
    cases o <;> exact h

theorem grows_matches (E : Env) (a : smAdapter) (id : ProjectIdentifier) (c : Constraint)
    (v : Version) : Grows E a (smAdapter.matches E a id c v).2 := by
  unfold smAdapter.matches
  split
  · exact Grows.refl
  · cases v with
    | union av => exact Grows.refl
    | single x =>
      cases x with
      | rev r =>
        cases c with
        | version w =>
          cases w with
          | union av => exact Grows.refl
          | single y =>
            cases y with
            | rev _ => exact Grows.refl
            | paired _ => exact Grows.refl
            | unpaired tc => exact grows_arm_pairVersion E a id tc _
        | semverConstraint tc => exact grows_pairRevision E a id r
        | noneConstraint => exact Grows.refl
        | anyConstraint => exact Grows.refl
      | paired p =>
        cases c with
        | version w =>
          cases w with
          | union av => exact Grows.refl
          | single y =>
            cases y with
            | rev _ => exact Grows.refl
            | paired _ => exact Grows.refl
            | unpaired tc => exact grows_arm_pairVersion E a id tc _
        | semverConstraint tc => exact grows_pairRevision E a id _
        | noneConstraint => exact Grows.refl
        | anyConstraint => exact Grows.refl
      | unpaired tv =>
        cases c with
        | version w =>
          cases w with
          | union av => exact Grows.refl
          | single y =>
            cases y with
            | rev _ => exact grows_arm_pairVersion E a id tv _
            | paired _ => exact grows_arm_pairVersion E a id tv _
            | unpaired tc =>
              have h1 := grows_pairVersion E a id tv
              simp only
              cases hp : smAdapter.pairVersion E a id tv with
              | mk o a1 =>
                rw [hp] at h1
                cases o with
                | none => exact h1
                | some pv => exact h1.trans (grows_arm_pairVersion E a1 id tc _)
        | semverConstraint tc =>
          have h1 := grows_pairVersion E a id tv
          simp only
          cases hp : smAdapter.pairVersion E a id tv with
          | mk o a1 =>
            rw [hp] at h1
            cases o with
            | none => exact h1
            | some pv => exact h1.trans (grows_pairRevision E a1 id _)
        | noneConstraint => exact Grows.refl
        | anyConstraint => exact Grows.refl

theorem grows_call (E : Env) (a : smAdapter) (c : Call) : Grows E a (Call.run E a c) := by
  cases c with
  | list id => exact grows_listVersions E a id
  | repo id => exact Grows.refl
  | vendor id => exact Grows.refl
  | pairV id v => exact grows_pairVersion E a id v
  | pairR id r => exact grows_pairRevision E a id r
  | test id c v => exact grows_matches E a id c v
  | testAny id c1 c2 => exact grows_matchesAny E a id c1 c2
  | inter id c1 c2 => exact grows_intersect E a id c1 c2
  | union id v => exact grows_vtu E a id v

theorem grows_runAll (E : Env) (a : smAdapter) (cs : List Call) : Grows E a (runAll E a cs) := by
  induction cs generalizing a with
  | nil => exact Grows.refl
  | cons c cs ih => exact (grows_call E a c).trans (ih _)

/-- A `listVersions` call keeps every cached list as it is. -/
theorem listVersions_keeps (E : Env) (a : smAdapter) (id : ProjectIdentifier) (k : ProjectName)
    (vl : List Ver) (h : a.vlists k = some vl) :
    (smAdapter.listVersions E a id).2.vlists k = some vl := by
  unfold smAdapter.listVersions
  simp only
  cases hk : a.vlists (smAdapter.key id) with
  | some vl2 => exact h
  | none =>
    cases hs : E.sm.ListVersions a.calls (smAdapter.key id) with
    | error e => exact h
    | ok vl2 =>
      have hne : k ≠ smAdapter.key id := by
        intro he
        rw [he, hk] at h
        cases h
      simp [setList, hne, h]

theorem grows_keeps (E : Env) (a b : smAdapter) (k : ProjectName) (vl : List Ver)
    (hg : Grows E a b) (h : a.vlists k = some vl) : b.vlists k = some vl := by
  induction hg with
  | refl => exact h
  | step c id _ ih => exact listVersions_keeps E c id k vl ih

/-- A successful `listVersions` call leaves its result in the cache. -/
theorem listVersions_ok_cached (E : Env) (a : smAdapter) (id : ProjectIdentifier) (vl : List Ver)
    (h : (smAdapter.listVersions E a id).1 = .ok vl) :
    (smAdapter.listVersions E a id).2.vlists (smAdapter.key id) = some vl := by
  unfold smAdapter.listVersions at h ⊢
  simp only at h ⊢
  cases hk : a.vlists (smAdapter.key id) with
  | some vl2 =>
    rw [hk] at h
    simp only [Except.ok.injEq] at h
    rw [← h]
    exact hk
  | none =>
    rw [hk] at h
    cases hs : E.sm.ListVersions a.calls (smAdapter.key id) with
    | error e =>
      rw [hs] at h
      cases h
    | ok vl2 =>
      rw [hs] at h
      simp only [Except.ok.injEq] at h
      simp [setList, h]

/-- On a cache hit `listVersions` returns the cached list and changes
nothing. -/
theorem listVersions_hit (E : Env) (a : smAdapter) (id : ProjectIdentifier) (vl : List Ver)
    (h : a.vlists (smAdapter.key id) = some vl) :
    smAdapter.listVersions E a id = (.ok vl, a) := by
  simp [smAdapter.listVersions, h]

theorem listVersions_historyOk (E : Env) (a : smAdapter) (id : ProjectIdentifier)
    (h : HistoryOk a) : HistoryOk (smAdapter.listVersions E a id).2 := by
  unfold smAdapter.listVersions
  simp only
  cases hk : a.vlists (smAdapter.key id) with
  | some vl2 => exact h
  | none =>
    cases hs : E.sm.ListVersions a.calls (smAdapter.key id) with
    | error e =>
      intro k
      have hk2 := h k
      constructor
      · intro hm
        simp only [List.mem_append, List.mem_singleton, Prod.mk.injEq, Bool.true_eq_false,
          and_false, or_false] at hm
        exact hk2.1 hm
      · simpa [List.count_append, List.count_singleton] using hk2.2
    | ok vl2 =>
      intro k
      have hk2 := h k
      by_cases hkk : k = smAdapter.key id
      · subst hkk
        constructor
        · intro _
          simp [setList]
        · have hnot : (smAdapter.key id, true) ∉ a.calls := by
            intro hm
            have := hk2.1 hm
            rw [hk] at this
            cases this
          simp [List.count_append, List.count_eq_zero_of_not_mem hnot]
      · constructor
        · intro hm
          simp only [List.mem_append, List.mem_singleton, Prod.mk.injEq, and_true] at hm
          rcases hm with hm | hm
          · simpa [setList, hkk] using hk2.1 hm
          · exact absurd hm hkk
        · have hne : ((smAdapter.key id, true) == (k, true)) = false := by
            simp [Ne.symm hkk]
          simpa [List.count_append, List.count_singleton, hne] using hk2.2

theorem grows_historyOk (E : Env) (a b : smAdapter) (hg : Grows E a b) (h : HistoryOk a) :
    HistoryOk b := by
  induction hg with
  | refl => exact h
  | step c id _ ih => exact listVersions_historyOk E c id ih

/-! ## Lemmas on a steady list -/

/-- When `listVersions` returns a list, a second call returns the same list,
without error. -/
theorem steady_listVersions (E : Env) (id : ProjectIdentifier) (a : smAdapter)
    (h : Steady E id a) :
    Steady E id (smAdapter.listVersions E a id).2 ∧
      (smAdapter.listVersions E (smAdapter.listVersions E a id).2 id).1 =
        (smAdapter.listVersions E a id).1 := by
  obtain ⟨vl, hvl⟩ := h
  have hc := listVersions_ok_cached E a id vl hvl
  have hh := listVersions_hit E (smAdapter.listVersions E a id).2 id vl hc
  refine ⟨⟨vl, ?_⟩, ?_⟩
  · rw [hh]
  · rw [hh, hvl]

theorem steady_pairVersion (E : Env) (id : ProjectIdentifier) (a : smAdapter)
    (v : UnpairedVersion) (h : Steady E id a) :
    (smAdapter.pairVersion E a id v).1 =
        pairVersionOf E.ops (smAdapter.listVersions E a id).1 v ∧
      Steady E id (smAdapter.pairVersion E a id v).2 ∧
      (smAdapter.listVersions E (smAdapter.pairVersion E a id v).2 id).1 =
        (smAdapter.listVersions E a id).1 := by
  have hs := steady_listVersions E id a h
  unfold smAdapter.pairVersion pairVersionOf
  cases hl : smAdapter.listVersions E a id with
  | mk res a1 =>
    rw [hl] at hs
    cases res <;> exact ⟨rfl, hs.1, hs.2⟩

theorem steady_pairRevision (E : Env) (id : ProjectIdentifier) (a : smAdapter) (r : Revision)
    (h : Steady E id a) :
    (smAdapter.pairRevision E a id r).1 =
        pairRevisionOf E.ops (smAdapter.listVersions E a id).1 r ∧
      Steady E id (smAdapter.pairRevision E a id r).2 ∧
      (smAdapter.listVersions E (smAdapter.pairRevision E a id r).2 id).1 =
        (smAdapter.listVersions E a id).1 := by
  have hs := steady_listVersions E id a h
  unfold smAdapter.pairRevision pairRevisionOf
  cases hl : smAdapter.listVersions E a id with
  | mk res a1 =>
    rw [hl] at hs
    cases res <;> exact ⟨rfl, hs.1, hs.2⟩

theorem steady_vtu (E : Env) (id : ProjectIdentifier) (a : smAdapter) (v : Version)
    (h : Steady E id a) :
    (smAdapter.vtu E a id v).1 = vtuOf E.ops (smAdapter.listVersions E a id).1 v ∧
      Steady E id (smAdapter.vtu E a id v).2 ∧
      (smAdapter.listVersions E (smAdapter.vtu E a id v).2 id).1 =
        (smAdapter.listVersions E a id).1 := by
  cases v with
  | union av => exact ⟨rfl, h, rfl⟩
  | single x =>
    cases x with
    | rev r => exact steady_pairRevision E id a r h
    | paired p => exact steady_pairRevision E id a p.Underlying h
    | unpaired u =>
      have h1 := steady_pairVersion E id a u h
      simp only [smAdapter.vtu, vtuOf]
      cases hp : smAdapter.pairVersion E a id u with
      | mk o a1 =>
        rw [hp] at h1
        simp only at h1
        rw [← h1.1]
        cases o with
        | none => exact ⟨rfl, h1.2.1, h1.2.2⟩
        | some pv =>
          have h2 := steady_pairRevision E id a1 pv.Underlying h1.2.1
          rw [h1.2.2] at h2
          exact h2

theorem steady_coerce (E : Env) (id : ProjectIdentifier) (a : smAdapter) (c : Constraint)
    (h : Steady E id a) :
    (smAdapter.coerce E a id c).1 = coerceOf E.ops (smAdapter.listVersions E a id).1 c ∧
      Steady E id (smAdapter.coerce E a id c).2 ∧
      (smAdapter.listVersions E (smAdapter.coerce E a id c).2 id).1 =
        (smAdapter.listVersions E a id).1 := by
  cases c with
  | version v =>
    have hv := steady_vtu E id a v h
    simp only [smAdapter.coerce, coerceOf]
    exact ⟨by rw [hv.1], hv.2.1, hv.2.2⟩
  | semverConstraint r => exact ⟨rfl, h, rfl⟩
  | noneConstraint => exact ⟨rfl, h, rfl⟩
  | anyConstraint => exact ⟨rfl, h, rfl⟩

/-- With a steady list, `matchesAny` is the local check, tried first on the
constraints and then on their coercions over the one list. -/
theorem steady_matchesAny (E : Env) (id : ProjectIdentifier) (a : smAdapter)
    (c1 c2 : Constraint) (h : Steady E id a) :
    (smAdapter.matchesAny E a id c1 c2).1 =
      (Constraint.MatchesAny E.ops c1 c2 ||
        Constraint.MatchesAny E.ops (coerceOf E.ops (smAdapter.listVersions E a id).1 c1)
          (coerceOf E.ops (smAdapter.listVersions E a id).1 c2)) := by
  unfold smAdapter.matchesAny
  cases hloc : Constraint.MatchesAny E.ops c1 c2
  · have h1 := steady_coerce E id a c1 h
    have h2 := steady_coerce E id (smAdapter.coerce E a id c1).2 c2 h1.2.1
    rw [h1.2.2] at h2
    simp only [Bool.false_eq_true, if_false, Bool.false_or]
    rw [← h1.1, ← h2.1]
  · simp

/-- The local `MatchesAny` of the modelled constraint methods is symmetric on
constraints that are not unions. -/
theorem specMatchesAnyC_symm (c c2 : Constraint) :
    specMatchesAnyC c c2 = specMatchesAnyC c2 c := by
  rcases c with (x | av) | r | _ | _ <;> rcases c2 with (y | av2) | r2 | _ | _ <;>
    (try rfl)
  · rcases x with r | u | p <;> rcases y with r2 | u2 | p2 <;>
      simp [specMatchesAnyC, specMatchesVer, eq_comm]
  · simp [specMatchesAnyC, SemverRange.overlaps, Bool.and_comm]

theorem any_any_comm {α β : Type} (l1 : List α) (l2 : List β) (f : α → β → Bool) :
    (l1.any fun x => l2.any fun y => f x y) = (l2.any fun y => l1.any fun x => f x y) := by
  rw [Bool.eq_iff_iff]
  simp only [List.any_eq_true]
  constructor
  · rintro ⟨x, hx, y, hy, h⟩
    exact ⟨y, hy, x, hx, h⟩
  · rintro ⟨y, hy, x, hx, h⟩
    exact ⟨x, hx, y, hy, h⟩

/-- With the modelled constraint methods and constraints of the documented
variants, the two checks of `matchesAny`, on the constraints and on their
coercions over one list, give the same answer in both orders. -/
theorem specOps_checks_symm (res : Except SMError (List Ver)) (c1 c2 : Constraint)
    (h1 : ∀ av, c1 ≠ .version (.union av)) (h2 : ∀ av, c2 ≠ .version (.union av)) :
    (Constraint.MatchesAny specOps c1 c2 ||
        Constraint.MatchesAny specOps (coerceOf specOps res c1) (coerceOf specOps res c2)) =
      (Constraint.MatchesAny specOps c2 c1 ||
        Constraint.MatchesAny specOps (coerceOf specOps res c2) (coerceOf specOps res c1)) := by
  rcases c1 with (x | av) | r | _ | _
  · rcases c2 with (y | av2) | r2 | _ | _
    · have hl : Constraint.MatchesAny specOps (Ver.toC x) (Ver.toC y) =
          Constraint.MatchesAny specOps (Ver.toC y) (Ver.toC x) :=
        specMatchesAnyC_symm (Ver.toC x) (Ver.toC y)
      have hc : Constraint.MatchesAny specOps (coerceOf specOps res (Ver.toC x))
            (coerceOf specOps res (Ver.toC y)) =
          Constraint.MatchesAny specOps (coerceOf specOps res (Ver.toC y))
            (coerceOf specOps res (Ver.toC x)) := by
        simp only [coerceOf, Constraint.MatchesAny, versionTypeUnion.MatchesAny, specOps,
          specMatchesAny]
        rw [any_any_comm]
        exact congrArg (List.any _)
          (funext fun y => congrArg (List.any _) (funext fun x => specMatchesAnyC_symm _ _))
      rw [hl, hc]
    · exact absurd rfl (h2 av2)
    · have hl : Constraint.MatchesAny specOps (Ver.toC x) (.semverConstraint r2) =
          Constraint.MatchesAny specOps (.semverConstraint r2) (Ver.toC x) :=
        specMatchesAnyC_symm (Ver.toC x) (.semverConstraint r2)
      have hc : Constraint.MatchesAny specOps (coerceOf specOps res (Ver.toC x))
            (coerceOf specOps res (.semverConstraint r2)) =
          Constraint.MatchesAny specOps (coerceOf specOps res (.semverConstraint r2))
            (coerceOf specOps res (Ver.toC x)) := by
        simp only [coerceOf, Constraint.MatchesAny, versionTypeUnion.MatchesAny, specOps,
          specMatchesAny]
        exact congrArg (List.any _) (funext fun x => specMatchesAnyC_symm _ _)
      rw [hl, hc]
    · have hl : Constraint.MatchesAny specOps (Ver.toC x) .noneConstraint =
          Constraint.MatchesAny specOps .noneConstraint (Ver.toC x) :=
        specMatchesAnyC_symm (Ver.toC x) .noneConstraint
      have hc : Constraint.MatchesAny specOps (coerceOf specOps res (Ver.toC x))
            (coerceOf specOps res .noneConstraint) =
          Constraint.MatchesAny specOps (coerceOf specOps res .noneConstraint)
            (coerceOf specOps res (Ver.toC x)) := by
        simp only [coerceOf, Constraint.MatchesAny, versionTypeUnion.MatchesAny, specOps,
          specMatchesAny]
        exact congrArg (List.any _) (funext fun x => specMatchesAnyC_symm _ _)
      rw [hl, hc]
    · have hl : Constraint.MatchesAny specOps (Ver.toC x) .anyConstraint = true := by
        cases x <;> rfl
      have hr : Constraint.MatchesAny specOps .anyConstraint (Ver.toC x) = true := by
        cases x <;> rfl
      rw [hl, hr, Bool.true_or, Bool.true_or]
  · exact absurd rfl (h1 av)
  · rcases c2 with (y | av2) | r2 | _ | _
    · have hl : Constraint.MatchesAny specOps (.semverConstraint r) (Ver.toC y) =
          Constraint.MatchesAny specOps (Ver.toC y) (.semverConstraint r) :=
        specMatchesAnyC_symm (.semverConstraint r) (Ver.toC y)
      have hc : Constraint.MatchesAny specOps (coerceOf specOps res (.semverConstraint r))
            (coerceOf specOps res (Ver.toC y)) =
          Constraint.MatchesAny specOps (coerceOf specOps res (Ver.toC y))
            (coerceOf specOps res (.semverConstraint r)) := by
        simp only [coerceOf, Constraint.MatchesAny, versionTypeUnion.MatchesAny, specOps,
          specMatchesAny]
        exact congrArg (List.any _) (funext fun x => specMatchesAnyC_symm _ _)
      rw [hl, hc]
    · exact absurd rfl (h2 av2)
    · have hl : Constraint.MatchesAny specOps (.semverConstraint r) (.semverConstraint r2) =
          Constraint.MatchesAny specOps (.semverConstraint r2) (.semverConstraint r) :=
        specMatchesAnyC_symm (.semverConstraint r) (.semverConstraint r2)
      simp only [coerceOf, hl]
    · rfl
    · rfl
  · rcases c2 with (y | av2) | r2 | _ | _
    · have hl : Constraint.MatchesAny specOps .noneConstraint (Ver.toC y) =
          Constraint.MatchesAny specOps (Ver.toC y) .noneConstraint :=
        specMatchesAnyC_symm .noneConstraint (Ver.toC y)
      have hc : Constraint.MatchesAny specOps (coerceOf specOps res .noneConstraint)
            (coerceOf specOps res (Ver.toC y)) =
          Constraint.MatchesAny specOps (coerceOf specOps res (Ver.toC y))
            (coerceOf specOps res .noneConstraint) := by
        simp only [coerceOf, Constraint.MatchesAny, versionTypeUnion.MatchesAny, specOps,
          specMatchesAny]
        exact congrArg (List.any _) (funext fun x => specMatchesAnyC_symm _ _)
      rw [hl, hc]
    · exact absurd rfl (h2 av2)
    · rfl
    · rfl
    · rfl
  · rcases c2 with (y | av2) | r2 | _ | _
    · have hl : Constraint.MatchesAny specOps (Ver.toC y) .anyConstraint = true := by
        cases y <;> rfl
      have hr : Constraint.MatchesAny specOps .anyConstraint (Ver.toC y) = true := by
        cases y <;> rfl
      rw [hl, hr, Bool.true_or, Bool.true_or]
    · exact absurd rfl (h2 av2)
    · rfl
    · rfl
    · rfl

/-! ## Lemmas on a fetch that keeps failing -/

/-- The coercions over a failed fetch do not depend on the error. -/
theorem coerceOf_error (L : LocalOps) (e1 e2 : SMError) (c : Constraint) :
    coerceOf L (.error e1) c = coerceOf L (.error e2) c := by
  rcases c with (x | av) | r | _ | _ <;> rfl

/-- The coercion over a failed fetch makes at most one `ListVersions` call
and caches nothing. -/
theorem coerce_fail (E : Env) (a : smAdapter) (id : ProjectIdentifier) (c : Constraint)
    (err : SMError) (hmiss : a.vlists (smAdapter.key id) = none)
    (herr : E.sm.ListVersions a.calls (smAdapter.key id) = .error err) :
    (smAdapter.coerce E a id c).1 = coerceOf E.ops (.error err) c ∧
      ((smAdapter.coerce E a id c).2 = a ∨
        (smAdapter.coerce E a id c).2 =
          { a with calls := a.calls ++ [(smAdapter.key id, false)] }) := by
  rcases c with (x | av) | r | _ | _
  · cases x <;>
      simp [smAdapter.coerce, smAdapter.vtu, smAdapter.pairRevision, smAdapter.pairVersion,
        smAdapter.listVersions, hmiss, herr, coerceOf, vtuOf, pairRevisionOf, pairVersionOf]
  · exact ⟨rfl, Or.inl rfl⟩
  · exact ⟨rfl, Or.inl rfl⟩
  · exact ⟨rfl, Or.inl rfl⟩
  · exact ⟨rfl, Or.inl rfl⟩

/-- Unless a failed fetch is followed by a successful retry, `matchesAny` is
the local check, tried first on the constraints and then on their coercions
over one result of `listVersions`. -/
theorem matchesAny_one_list (E : Env) (id : ProjectIdentifier) (a : smAdapter)
    (h : ¬ RetrySucceeds E.sm id a) :
    ∃ res, ∀ c1 c2,
      (smAdapter.matchesAny E a id c1 c2).1 =
        (Constraint.MatchesAny E.ops c1 c2 ||
          Constraint.MatchesAny E.ops (coerceOf E.ops res c1) (coerceOf E.ops res c2)) := by
  by_cases hst : Steady E id a
  · exact ⟨_, fun c1 c2 => steady_matchesAny E id a c1 c2 hst⟩
  · have hmiss : a.vlists (smAdapter.key id) = none := by
      cases hk : a.vlists (smAdapter.key id) with
      | none => rfl
      | some vl => exact absurd ⟨vl, by rw [listVersions_hit E a id vl hk]⟩ hst
    cases hs : E.sm.ListVersions a.calls (smAdapter.key id) with
    | ok vl => exact absurd ⟨_, listVersions_miss_ok E a id vl hmiss hs⟩ hst
    | error e1 =>
      cases hs2 : E.sm.ListVersions (a.calls ++ [(smAdapter.key id, false)])
          (smAdapter.key id) with
      | ok vl => exact absurd ⟨hmiss, ⟨e1, hs⟩, ⟨vl, hs2⟩⟩ h
      | error e2 =>
        refine ⟨.error e1, fun c1 c2 => ?_⟩
        unfold smAdapter.matchesAny
        cases hloc : Constraint.MatchesAny E.ops c1 c2
        · simp only [Bool.false_eq_true, if_false, Bool.false_or]
          have hc1 := coerce_fail E a id c1 e1 hmiss hs
          rw [hc1.1]
          rcases hc1.2 with ha | ha
          · rw [ha, (coerce_fail E a id c2 e1 hmiss hs).1]
          · rw [ha, (coerce_fail E { a with calls := a.calls ++ [(smAdapter.key id, false)] }
              id c2 e2 hmiss hs2).1, coerceOf_error E.ops e2 e1]
        · simp

/-- A SourceManager that always succeeds never has a failed fetch to retry. -/
theorem constSM_no_retry (vl : List Ver) (id : ProjectIdentifier) (a : smAdapter) :
    ¬ RetrySucceeds (constSM vl) id a := by
  rintro ⟨_, ⟨err, he⟩, _⟩
  cases he

/-! ## Lemmas on the sorters -/

theorem strictWeak_of_key {κ : Type} [LinearOrder κ] (lt : Ver → Ver → Bool) (key : Ver → κ)
    (h : ∀ a b, lt a b = true ↔ key a < key b) : StrictWeak lt := by
  have hf : ∀ a b, lt a b = false ↔ key b ≤ key a := by
    intro a b
    rw [← not_lt, ← h, Bool.not_eq_true]
  refine ⟨?_, ?_, ?_⟩
  · intro a
    rw [hf]
  · intro a b c hab hbc
    rw [h] at *
    exact lt_trans hab hbc
  · intro a b c hab hbc
    rw [hf] at *
    exact le_trans hbc hab

theorem preLess_iff (a b : String) (h : a = "" ↔ b = "") : preLess a b = true ↔ a < b := by
  unfold preLess
  by_cases ha : a = ""
  · have hb := h.mp ha
    subst ha
    subst hb
    simp
  · have hb : ¬ b = "" := fun hb => ha (h.mpr hb)
    simp [ha, hb]

theorem lessThan_iff (a b : SemVer) (h : a.pre = "" ↔ b.pre = "") :
    a.LessThan b = true ↔ semKey a < semKey b := by
  unfold SemVer.LessThan semKey
  simp only [Prod.Lex.lt_iff]
  have hp := preLess_iff a.pre b.pre h
  split_ifs with h1 h2 h3
  · simp only [decide_eq_true_eq]
    constructor
    · intro hlt; exact Or.inl hlt
    · rintro (hlt | ⟨he, _⟩)
      · exact hlt
      · exact absurd he h1
  · simp only [decide_eq_true_eq]
    push_neg at h1
    constructor
    · intro hlt; exact Or.inr ⟨h1, Or.inl hlt⟩
    · rintro (hlt | ⟨_, hlt | ⟨he, _⟩⟩)
      · omega
      · exact hlt
      · exact absurd he h2
  · simp only [decide_eq_true_eq]
    push_neg at h1 h2
    constructor
    · intro hlt; exact Or.inr ⟨h1, Or.inr ⟨h2, Or.inl hlt⟩⟩
    · rintro (hlt | ⟨_, hlt | ⟨_, hlt | ⟨he, _⟩⟩⟩)
      · omega
      · omega
      · exact hlt
      · exact absurd he h3
  · push_neg at h1 h2 h3
    rw [hp]
    constructor
    · intro hlt; exact Or.inr ⟨h1, Or.inr ⟨h2, Or.inr ⟨h3, hlt⟩⟩⟩
    · rintro (hlt | ⟨_, hlt | ⟨_, hlt | ⟨_, hlt⟩⟩⟩)
      · omega
      · omega
      · omega
      · exact hlt


/-- The semver arm of both sorters: the full release first, then the
comparison of the sorter. -/
theorem semArm_iff (x x2 : SemVer) (cmp : Bool) (K : Prop)
    (h : (x.pre = "" ↔ x2.pre = "") → (cmp = true ↔ K)) :
    ((if x.Prerelease = "" ∧ ¬x2.Prerelease = "" ∨ ¬x.Prerelease = "" ∧ x2.Prerelease = "" then
        some (decide (x.Prerelease = ""))
      else some cmp).getD false = true) ↔
      ((!decide (x.pre = "")) < !decide (x2.pre = "") ∨ (x.pre = "" ↔ x2.pre = "") ∧ K) := by
  by_cases hx : x.pre = "" <;> by_cases hx2 : x2.pre = "" <;>
    simp [SemVer.Prerelease, hx, hx2] at h ⊢
  · exact h
  · exact h

theorem downLess_iff (a b : Ver) :
    downgradeVersionSorter.Less a b = true ↔ downKey a < downKey b := by
  unfold downgradeVersionSorter.Less downgradeVersionSorter.Less? sorterLess downKey
  rcases a with r | (s | s | x) | ⟨(s | s | x), r⟩ <;>
    rcases b with r2 | (s2 | s2 | x2) | ⟨(s2 | s2 | x2), r2⟩ <;>
    simp [unpair, compareVersionType, kindRank, Prod.Lex.lt_iff, Ver.String, UnpairedVersion.String]
  all_goals exact semArm_iff x x2 _ _ (lessThan_iff x x2)

theorem upLess_iff (a b : Ver) :
    upgradeVersionSorter.Less a b = true ↔ upKey a < upKey b := by
  unfold upgradeVersionSorter.Less upgradeVersionSorter.Less? sorterLess upKey
  rcases a with r | (s | s | x) | ⟨(s | s | x), r⟩ <;>
    rcases b with r2 | (s2 | s2 | x2) | ⟨(s2 | s2 | x2), r2⟩ <;>
    simp [unpair, compareVersionType, kindRank, Prod.Lex.lt_iff, Ver.String, UnpairedVersion.String]
  all_goals
    exact semArm_iff x x2 _ _ (fun h => by
      unfold SemVer.GreaterThan
      exact lessThan_iff x2 x h.symm)

theorem downLess_strictWeak : StrictWeak downgradeVersionSorter.Less :=
  strictWeak_of_key _ downKey downLess_iff

theorem upLess_strictWeak : StrictWeak upgradeVersionSorter.Less :=
  strictWeak_of_key _ upKey upLess_iff

/-- Neither `Less` method panics on the elements of a version list. -/
theorem sorterLess_isSome (cmp : SemVer → SemVer → Bool) (a b : Ver) :
    (sorterLess cmp a b).isSome = true := by
  unfold sorterLess
  rcases a with r | (s | s | x) | ⟨(s | s | x), r⟩ <;>
    rcases b with r2 | (s2 | s2 | x2) | ⟨(s2 | s2 | x2), r2⟩ <;>
    simp [unpair, compareVersionType, kindRank] <;> split <;> rfl

theorem refSort_contract : SortContract refSort := by
  constructor
  · intro lt l
    exact List.perm_insertionSort _ l
  · intro lt l h
    haveI : IsTotal Ver (fun a b => lt b a = false) := ⟨fun a b => by
      cases hab : lt b a
      · exact Or.inl rfl
      · right
        cases hba : lt a b
        · rfl
        · have := h.trans a b a hba hab
          rw [h.irrefl] at this
          cases this⟩
    haveI : IsTrans Ver (fun a b => lt b a = false) := ⟨fun a b c hab hbc =>
      h.negTrans c b a hbc hab⟩
    exact List.sorted_insertionSort _ l

/-- A list sorted by `lt` is determined by its elements when `lt` tells any
two different elements apart. -/
theorem sorted_perm_unique (lt : Ver → Ver → Bool) (l e : List Ver) (hperm : l.Perm e)
    (hl : l.Pairwise (fun x y => lt y x = false))
    (he : e.Pairwise (fun x y => lt y x = false))
    (hanti : ∀ x ∈ e, ∀ y ∈ e, lt x y = false → lt y x = false → x = y) : l = e := by
  haveI : IsAntisymm Ver (fun x y => lt y x = false ∧ x ∈ e ∧ y ∈ e) :=
    ⟨fun x y hxy hyx => hanti x hxy.2.1 y hxy.2.2 hyx.1 hxy.1⟩
  refine List.eq_of_perm_of_sorted hperm (r := fun x y => lt y x = false ∧ x ∈ e ∧ y ∈ e) ?_ ?_
  · exact hl.imp_of_mem fun hx hy h => ⟨h, hperm.mem_iff.mp hx, hperm.mem_iff.mp hy⟩
  · exact he.imp_of_mem fun hx hy h => ⟨h, hx, hy⟩

/-! ## Lemmas on releases and pre-releases -/

/-- A full release is `Less` than a pre-release, and not the other way
round, under both sorters. -/
theorem full_less_pre (l r : Ver) (hl : isFullRelease l = true) (hr : isPreRelease r = true) :
    upgradeVersionSorter.Less l r = true ∧ upgradeVersionSorter.Less r l = false ∧
      downgradeVersionSorter.Less l r = true ∧ downgradeVersionSorter.Less r l = false := by
  rcases l with r1 | (s | s | x) | ⟨(s | s | x), r1⟩ <;>
    simp [isFullRelease, semverOf] at hl <;>
    rcases r with r2 | (s2 | s2 | x2) | ⟨(s2 | s2 | x2), r2⟩ <;>
    simp [isPreRelease, semverOf] at hr <;>
    simp [upgradeVersionSorter.Less, upgradeVersionSorter.Less?, downgradeVersionSorter.Less,
      downgradeVersionSorter.Less?, sorterLess, unpair, compareVersionType, kindRank, hl, hr]

theorem listVersions_sortdown (E : Env) (a : smAdapter) (id : ProjectIdentifier) :
    (smAdapter.listVersions E a id).2.sortdown = a.sortdown := by
  unfold smAdapter.listVersions
  simp only
  cases a.vlists (smAdapter.key id) with
  | some vl => rfl
  | none =>
    cases E.sm.ListVersions a.calls (smAdapter.key id) with
    | error e => rfl
    | ok vl => rfl

theorem directedLess_strictWeak (b : Bool) : StrictWeak (directedLess b) := by
  cases b
  · exact upLess_strictWeak
  · exact downLess_strictWeak

theorem listVersions_cacheSorted (E : Env) (hsort : SortContract E.sort) (a : smAdapter)
    (id : ProjectIdentifier) (h : CacheSorted a) :
    CacheSorted (smAdapter.listVersions E a id).2 := by
  intro k vl hk
  rw [listVersions_sortdown]
  revert hk
  unfold smAdapter.listVersions
  simp only
  cases hc : a.vlists (smAdapter.key id) with
  | some vl2 => exact h k vl
  | none =>
    cases hs : E.sm.ListVersions a.calls (smAdapter.key id) with
    | error e => exact h k vl
    | ok vl2 =>
      simp only [setList]
      by_cases hkk : k = smAdapter.key id
      · simp only [hkk, if_true, Option.some.injEq]
        intro he
        rw [← he]
        have hsw := hsort.sorted (directedLess a.sortdown) vl2 (directedLess_strictWeak _)
        cases hd : a.sortdown <;> simpa [directedLess, hd] using hsw
      · simp only [hkk, if_false]
        exact h k vl

theorem grows_cacheSorted (E : Env) (hsort : SortContract E.sort) (a b : smAdapter)
    (hg : Grows E a b) (h : CacheSorted a) : CacheSorted b := by
  induction hg with
  | refl => exact h
  | step c id _ ih => exact listVersions_cacheSorted E hsort c id ih

/-! ## Lemmas on a failed fetch -/

theorem pairVersion_fail (E : Env) (a : smAdapter) (id : ProjectIdentifier)
    (v : UnpairedVersion) (err : SMError) (hmiss : a.vlists (smAdapter.key id) = none)
    (herr : E.sm.ListVersions a.calls (smAdapter.key id) = .error err) :
    (smAdapter.pairVersion E a id v).1 = none := by
  simp [smAdapter.pairVersion, smAdapter.listVersions, hmiss, herr]

theorem pairRevision_fail (E : Env) (a : smAdapter) (id : ProjectIdentifier) (r : Revision)
    (err : SMError) (hmiss : a.vlists (smAdapter.key id) = none)
    (herr : E.sm.ListVersions a.calls (smAdapter.key id) = .error err) :
    (smAdapter.pairRevision E a id r).1 = [] := by
  simp [smAdapter.pairRevision, smAdapter.listVersions, hmiss, herr]

/-- The arm of `matches` that pairs a version first returns false when the
pairing gives nil. -/
theorem arm_pairVersion_none (E : Env) (a : smAdapter) (id : ProjectIdentifier)
    (tc : UnpairedVersion) (f : versionPair → smAdapter → Except String Bool × smAdapter)
    (h : (smAdapter.pairVersion E a id tc).1 = none) :
    (match smAdapter.pairVersion E a id tc with
      | (none, a1) => ((.ok false : Except String Bool), a1)
      | (some pv, a1) => f pv a1).1 = .ok false := by
  cases hp : smAdapter.pairVersion E a id tc with
  | mk o a1 =>
    rw [hp] at h
    simp only at h
    subst h
    rfl

/-- The arm of `matches` that scans `pairRevision` returns false when the
sequence is empty. -/
theorem arm_pairRevision_nil (E : Env) (a : smAdapter) (id : ProjectIdentifier) (r : Revision)
    (g : Ver → Bool) (h : (smAdapter.pairRevision E a id r).1 = []) :
    (match smAdapter.pairRevision E a id r with
      | (l, a1) => ((.ok (l.any g) : Except String Bool), a1)).1 = .ok false := by
  cases hp : smAdapter.pairRevision E a id r with
  | mk l a1 =>
    rw [hp] at h
    simp only at h
    subst h
    rfl

/-- On a revision, an unpaired or a paired version `matches` returns a
boolean: it does not panic. -/
theorem matches_single_ok (E : Env) (a : smAdapter) (id : ProjectIdentifier) (c : Constraint)
    (x : Ver) : ∃ b, (smAdapter.matches E a id c (.single x)).1 = .ok b := by
  unfold smAdapter.matches
  split
  · exact ⟨true, rfl⟩
  · rcases x with r | tv | p <;> rcases c with (y | av) | tc | _ | _
    all_goals try rcases y with _ | uc | _
    all_goals simp only
    all_goals repeat' split
    all_goals exact ⟨_, rfl⟩

/-- When the list is not cached and the fetch fails, `matches` on a revision,
an unpaired or a paired version returns the local check. -/
theorem matches_fetch_fails (E : Env) (a : smAdapter) (id : ProjectIdentifier) (c : Constraint)
    (x : Ver) (err : SMError) (hmiss : a.vlists (smAdapter.key id) = none)
    (herr : E.sm.ListVersions a.calls (smAdapter.key id) = .error err) :
    (smAdapter.matches E a id c (.single x)).1 = .ok (Constraint.Matches E.ops c (.single x)) := by
  have hv := fun v => pairVersion_fail E a id v err hmiss herr
  have hr := fun r => pairRevision_fail E a id r err hmiss herr
  unfold smAdapter.matches
  cases hloc : Constraint.Matches E.ops c (.single x)
  · simp only [Bool.false_eq_true, if_false]
    rcases x with r | tv | p <;> rcases c with (y | av) | tc | _ | _
    all_goals try rcases y with _ | uc | _
    all_goals simp only
    all_goals first
      | rfl
      | exact arm_pairVersion_none E a id _ _ (hv _)
      | exact arm_pairRevision_nil E a id _ _ (hr _)
  · rfl

/-! ## Lemmas on the first match -/

theorem firstPair_none_iff (L : LocalOps) (v : UnpairedVersion) (vl : List Ver) :
    firstPair L v vl = none ↔
      ∀ q, Ver.paired q ∈ vl →
        Constraint.Matches L (Ver.toC (.paired q)) (.single (.unpaired v)) = false := by
  induction vl with
  | nil => simp [firstPair]
  | cons y ys ih =>
    cases y with
    | rev r => simp [firstPair, ih]
    | unpaired u => simp [firstPair, ih]
    | paired p =>
      cases hp : Constraint.Matches L (Ver.toC (.paired p)) (.single (.unpaired v))
      · simp only [firstPair, hp, Bool.false_eq_true, if_false, ih, List.mem_cons,
          Ver.paired.injEq]
        constructor
        · rintro h q (hq | hq)
          · rw [hq]; exact hp
          · exact h q hq
        · intro h q hq
          exact h q (Or.inr hq)
      · simp only [firstPair, hp, if_true, reduceCtorEq, false_iff, not_forall]
        exact ⟨p, List.mem_cons_self _ _, by simp [hp]⟩

theorem firstPair_append (L : LocalOps) (v : UnpairedVersion) (l1 l2 : List Ver)
    (h : ∀ q, Ver.paired q ∈ l1 →
      Constraint.Matches L (Ver.toC (.paired q)) (.single (.unpaired v)) = false) :
    firstPair L v (l1 ++ l2) = firstPair L v l2 := by
  induction l1 with
  | nil => rfl
  | cons y ys ih =>
    have hys := ih fun q hq => h q (List.mem_cons_of_mem _ hq)
    cases y with
    | rev r => simpa [firstPair] using hys
    | unpaired u => simpa [firstPair] using hys
    | paired p =>
      have hp := h p (List.mem_cons_self _ _)
      simpa [firstPair, hp] using hys

theorem firstPair_some_iff (L : LocalOps) (v : UnpairedVersion) (vl : List Ver)
    (p : versionPair) :
    firstPair L v vl = some p ↔
      ∃ l1 l2, vl = l1 ++ Ver.paired p :: l2 ∧
        Constraint.Matches L (Ver.toC (.paired p)) (.single (.unpaired v)) = true ∧
        ∀ q, Ver.paired q ∈ l1 →
          Constraint.Matches L (Ver.toC (.paired q)) (.single (.unpaired v)) = false := by
  constructor
  · intro h
    induction vl with
    | nil => simp [firstPair] at h
    | cons y ys ih =>
      cases y with
      | rev r =>
        obtain ⟨l1, l2, he, hm, hn⟩ := ih (by simpa [firstPair] using h)
        refine ⟨.rev r :: l1, l2, by rw [he]; rfl, hm, ?_⟩
        intro q hq
        rcases List.mem_cons.mp hq with hq | hq
        · cases hq
        · exact hn q hq
      | unpaired u =>
        obtain ⟨l1, l2, he, hm, hn⟩ := ih (by simpa [firstPair] using h)
        refine ⟨.unpaired u :: l1, l2, by rw [he]; rfl, hm, ?_⟩
        intro q hq
        rcases List.mem_cons.mp hq with hq | hq
        · cases hq
        · exact hn q hq
      | paired p2 =>
        cases hp : Constraint.Matches L (Ver.toC (.paired p2)) (.single (.unpaired v))
        · obtain ⟨l1, l2, he, hm, hn⟩ := ih (by simpa [firstPair, hp] using h)
          refine ⟨.paired p2 :: l1, l2, by rw [he]; rfl, hm, ?_⟩
          intro q hq
          rcases List.mem_cons.mp hq with hq | hq
          · injection hq with hq
            rw [hq]; exact hp
          · exact hn q hq
        · simp only [firstPair, hp, if_true, Option.some.injEq] at h
          subst h
          exact ⟨[], ys, rfl, hp, fun q hq => by cases hq⟩
  · rintro ⟨l1, l2, he, hm, hn⟩
    rw [he, firstPair_append L v l1 _ hn]
    simp [firstPair, hm]

/-- The loop of `pairRevision` keeps the paired versions that match `r`, in
the order of the list. -/
theorem pairsOf_eq_filter (L : LocalOps) (r : Revision) (vl : List Ver) :
    pairsOf L r vl = vl.filter fun x =>
      match x with
      | .paired pv => Constraint.Matches L (Ver.toC (.paired pv)) (.single (.rev r))
      | _ => false := by
  induction vl with
  | nil => rfl
  | cons y ys ih =>
    cases y with
    | rev q => simp [pairsOf, ih]
    | unpaired u => simp [pairsOf, ih]
    | paired p =>
      cases hp : Constraint.Matches L (Ver.toC (.paired p)) (.single (.rev r)) <;>
        simp [pairsOf, hp, ih]

/-! ## Lemmas on the first intersection -/

theorem isNone_iff (c : Constraint) : c.isNone = true ↔ c = .noneConstraint := by
  cases c <;> simp [Constraint.isNone]

theorem firstNonNone_eq_none_iff {α : Type} (f : α → Constraint) (l : List α) :
    firstNonNone f l = .noneConstraint ↔ ∀ x ∈ l, f x = .noneConstraint := by
  constructor
  · intro h
    induction l with
    | nil => intro x hx; cases hx
    | cons y ys ih =>
      by_cases hy : (f y).isNone = true
      · rw [firstNonNone, if_pos hy] at h
        intro x hx
        rcases List.mem_cons.mp hx with hx | hx
        · rw [hx]; exact (isNone_iff _).mp hy
        · exact ih h x hx
      · rw [firstNonNone, if_neg hy] at h
        exact absurd ((isNone_iff _).mpr h) hy
  · exact firstNonNone_eq_none f l

theorem firstNonNone_append {α : Type} (f : α → Constraint) (l1 l2 : List α)
    (h : ∀ x ∈ l1, f x = .noneConstraint) :
    firstNonNone f (l1 ++ l2) = firstNonNone f l2 := by
  induction l1 with
  | nil => rfl
  | cons y ys ih =>
    have hy : (f y).isNone = true := (isNone_iff _).mpr (h y (List.mem_cons_self _ _))
    rw [List.cons_append, firstNonNone, if_pos hy]
    exact ih fun x hx => h x (List.mem_cons_of_mem _ hx)

/-- The loop returns the result of the first element whose result is not
`none`. -/
theorem firstNonNone_first {α : Type} (f : α → Constraint) (l1 l2 : List α) (x : α)
    (h : ∀ y ∈ l1, f y = .noneConstraint) (hx : f x ≠ .noneConstraint) :
    firstNonNone f (l1 ++ x :: l2) = f x := by
  rw [firstNonNone_append f l1 _ h, firstNonNone]
  have hn : ¬ (f x).isNone = true := fun hn => hx ((isNone_iff _).mp hn)
  rw [if_neg hn]

theorem firstNonNone_append_gen {α : Type} (f : α → Constraint) (l1 l2 : List α) :
    firstNonNone f (l1 ++ l2) =
      if (firstNonNone f l1).isNone then firstNonNone f l2 else firstNonNone f l1 := by
  induction l1 with
  | nil => simp [firstNonNone, Constraint.isNone]
  | cons y ys ih =>
    by_cases hy : (f y).isNone = true
    · rw [List.cons_append, firstNonNone, if_pos hy, ih, firstNonNone, if_pos hy]
    · rw [List.cons_append, firstNonNone, if_neg hy, firstNonNone, if_neg hy, if_neg hy]

theorem firstNonNone_map {α β : Type} (f : β → Constraint) (g : α → β) (l : List α) :
    firstNonNone f (l.map g) = firstNonNone (fun x => f (g x)) l := by
  induction l with
  | nil => rfl
  | cons y ys ih => simp only [List.map_cons, firstNonNone, ih]

/-- The two nested loops of `versionTypeUnion.Intersect` try the pairs of
members in the order of the product: the members of the receiver in the outer
loop, those of the argument in the inner loop. -/
theorem firstNonNone_product {α β : Type} (f : α → β → Constraint) (l1 : List α)
    (l2 : List β) :
    firstNonNone (fun x => firstNonNone (fun y => f x y) l2) l1 =
      firstNonNone (fun pr => f pr.1 pr.2) (List.product l1 l2) := by
  induction l1 with
  | nil => rfl
  | cons x xs ih =>
    have hp : List.product (x :: xs) l2 = l2.map (fun b => (x, b)) ++ List.product xs l2 :=
      List.product_cons _ _ _
    rw [hp, firstNonNone_append_gen, firstNonNone_map, firstNonNone, ih]

/-- On a constraint that is not a union, `versionTypeUnion.Intersect` is the
single loop over the members. -/
theorem union_intersect_single_loop (L : LocalOps) (av : List Ver) (c : Constraint)
    (hc : ∀ av2, c ≠ .version (.union av2)) :
    versionTypeUnion.Intersect L av c =
      firstNonNone (fun m => Constraint.Intersect L (Ver.toC m) c) av := by
  cases c with
  | version v =>
    cases v with
    | single x => rfl
    | union av2 => exact absurd rfl (hc av2)
  | semverConstraint r => rfl
  | noneConstraint => rfl
  | anyConstraint => rfl

/-- On a union, `versionTypeUnion.Intersect` is the loop over the pairs of
members. -/
theorem union_intersect_pair_loop (L : LocalOps) (av av2 : List Ver) :
    versionTypeUnion.Intersect L av (.version (.union av2)) =
      firstNonNone (fun pr => Constraint.Intersect L (Ver.toC pr.1) (Ver.toC pr.2))
        (List.product av av2) :=
  firstNonNone_product (fun x y => L.Intersect (Ver.toC x) (Ver.toC y)) av av2

/-! ## Lemmas on ties -/

/-- Two sorted permutations of one list carry the same sequence of sort
keys. -/
theorem sorted_keys_unique {κ : Type} [LinearOrder κ] (lt : Ver → Ver → Bool) (key : Ver → κ)
    (hkey : ∀ a b, lt a b = true ↔ key a < key b) (l1 l2 : List Ver) (hperm : l1.Perm l2)
    (h1 : l1.Pairwise (fun x y => lt y x = false))
    (h2 : l2.Pairwise (fun x y => lt y x = false)) : l1.map key = l2.map key := by
  have hle : ∀ x y, lt y x = false → key x ≤ key y := by
    intro x y h
    rw [← not_lt, ← hkey, h]
    simp
  have s1 : (l1.map key).Sorted (· ≤ ·) := List.pairwise_map.mpr (h1.imp (hle _ _))
  have s2 : (l2.map key).Sorted (· ≤ ·) := List.pairwise_map.mpr (h2.imp (hle _ _))
  exact List.eq_of_perm_of_sorted (hperm.map key) s1 s2

/-- Two sorted permutations of one list are tied position by position. -/
theorem sorted_tied_of_key {κ : Type} [LinearOrder κ] (lt : Ver → Ver → Bool) (key : Ver → κ)
    (hkey : ∀ a b, lt a b = true ↔ key a < key b) (l1 l2 : List Ver) (hperm : l1.Perm l2)
    (h1 : l1.Pairwise (fun x y => lt y x = false))
    (h2 : l2.Pairwise (fun x y => lt y x = false)) : List.Forall₂ (Tied lt) l1 l2 := by
  have hk := sorted_keys_unique lt key hkey l1 l2 hperm h1 h2
  have hf : List.Forall₂ (fun x y => key x = key y) l1 l2 := by
    rw [← List.forall₂_map_right_iff, ← List.forall₂_map_left_iff, List.forall₂_eq_eq_eq]
    exact hk
  refine hf.imp ?_
  intro x y hxy
  have hno : ∀ a b, key a = key b → lt a b = false := by
    intro a b hab
    rw [← Bool.not_eq_true, hkey, hab]
    exact lt_irrefl _
  exact ⟨hno x y hxy, hno y x hxy.symm⟩

theorem sorted_tied (b : Bool) (l1 l2 : List Ver) (hperm : l1.Perm l2)
    (h1 : l1.Pairwise (fun x y => directedLess b y x = false))
    (h2 : l2.Pairwise (fun x y => directedLess b y x = false)) :
    List.Forall₂ (Tied (directedLess b)) l1 l2 := by
  cases b
  · exact sorted_tied_of_key _ upKey upLess_iff l1 l2 hperm h1 h2
  · exact sorted_tied_of_key _ downKey downLess_iff l1 l2 hperm h1 h2

/-- Lists that are tied position by position are equal when a tie between
their elements is an equality. -/
theorem eq_of_forall₂_tied (lt : Ver → Ver → Bool) (l1 l2 : List Ver)
    (h : List.Forall₂ (Tied lt) l1 l2)
    (hno : ∀ x ∈ l1, ∀ y ∈ l2, Tied lt x y → x = y) : l1 = l2 := by
  induction h with
  | nil => rfl
  | cons hxy _ ih =>
    rw [hno _ (List.mem_cons_self _ _) _ (List.mem_cons_self _ _) hxy]
    rw [ih fun x hx y hy => hno x (List.mem_cons_of_mem _ hx) y (List.mem_cons_of_mem _ hy)]

/-- On a cache miss answered by the SourceManager, `listVersions` returns the
list sorted by the `Less` of the direction. -/
theorem listVersions_miss_directed (E : Env) (a : smAdapter) (id : ProjectIdentifier)
    (vl : List Ver) (hc : a.vlists (smAdapter.key id) = none)
    (hs : E.sm.ListVersions a.calls (smAdapter.key id) = .ok vl) :
    (smAdapter.listVersions E a id).1 = .ok (E.sort (directedLess a.sortdown) vl) := by
  rw [listVersions_miss_ok E a id vl hc hs]
  cases a.sortdown <;> rfl

/-! ## Lemmas on the sort of short slices -/

/-- Under a strict weak ordering, "not less" is total. -/
theorem StrictWeak.total {lt : Ver → Ver → Bool} (h : StrictWeak lt) (a b : Ver) :
    lt a b = false ∨ lt b a = false := by
  cases hab : lt a b
  · exact Or.inl rfl
  · right
    cases hba : lt b a
    · rfl
    · have := h.trans a b a hab hba
      rw [h.irrefl] at this
      cases this

theorem sinkLeft_eq_orderedInsert (lt : Ver → Ver → Bool) (x : Ver) (l : List Ver) :
    sinkLeft lt x l = List.orderedInsert (fun a b => lt a b = false) x l := by
  induction l with
  | nil => rfl
  | cons y ys ih =>
    cases hxy : lt x y <;> simp [sinkLeft, List.orderedInsert, hxy, ih]

theorem foldl_sinkLeft_perm (lt : Ver → Ver → Bool) (l acc : List Ver) :
    (l.foldl (fun before x => sinkLeft lt x before) acc).Perm (l ++ acc) := by
  induction l generalizing acc with
  | nil => exact List.Perm.refl _
  | cons x xs ih =>
    refine (ih (sinkLeft lt x acc)).trans ?_
    rw [sinkLeft_eq_orderedInsert]
    exact (List.Perm.append_left xs (List.perm_orderedInsert _ x acc)).trans
      List.perm_middle

theorem foldl_sinkLeft_sorted (lt : Ver → Ver → Bool) (h : StrictWeak lt) (l acc : List Ver)
    (hacc : acc.Sorted (fun a b => lt a b = false)) :
    (l.foldl (fun before x => sinkLeft lt x before) acc).Sorted (fun a b => lt a b = false) := by
  haveI : IsTotal Ver (fun a b => lt a b = false) := ⟨h.total⟩
  haveI : IsTrans Ver (fun a b => lt a b = false) := ⟨h.negTrans⟩
  induction l generalizing acc with
  | nil => exact hacc
  | cons x xs ih =>
    apply ih
    show List.Sorted (fun a b => lt a b = false) (sinkLeft lt x acc)
    rw [sinkLeft_eq_orderedInsert]
    exact hacc.orderedInsert x acc

theorem gapSwap_perm (lt : Ver → Ver → Bool) (f b : List Ver) :
    ((gapSwap lt f b).1 ++ (gapSwap lt f b).2).Perm (f ++ b) := by
  induction f generalizing b with
  | nil => cases b <;> simp [gapSwap]
  | cons x xs ih =>
    cases b with
    | nil => simp [gapSwap]
    | cons y ys =>
      have h := ih ys
      have hmid : (x :: (xs ++ y :: ys)).Perm (x :: y :: (xs ++ ys)) :=
        List.Perm.cons x List.perm_middle
      by_cases hlt : lt y x = true
      · simp only [gapSwap, hlt, if_true, List.cons_append]
        refine List.Perm.trans ?_ hmid.symm
        refine List.Perm.trans ?_ (List.Perm.swap x y _)
        refine List.Perm.cons y ?_
        exact List.perm_middle.trans (List.Perm.cons x h)
      · simp only [gapSwap, hlt, Bool.false_eq_true, if_false, List.cons_append]
        refine List.Perm.trans ?_ hmid.symm
        refine List.Perm.cons x ?_
        exact List.perm_middle.trans (List.Perm.cons y h)

/-- The sort of short slices meets the contract of `sort.Sort`. -/
theorem sortSmall_contract : SortContract sortSmall := by
  constructor
  · intro lt l
    unfold sortSmall goInsertionSort
    refine (List.reverse_perm _).trans ?_
    refine (foldl_sinkLeft_perm lt _ []).trans ?_
    rw [List.append_nil]
    refine (gapSwap_perm lt _ _).trans ?_
    rw [List.take_append_drop]
  · intro lt l h
    unfold sortSmall goInsertionSort
    rw [List.pairwise_reverse]
    exact foldl_sinkLeft_sorted lt h _ [] List.sorted_nil

/-! ## Claims -/

/-- C1: when the local check `c.Matches(v)` is true, `matches(id, c, v)`
returns true, makes no call to the SourceManager (the call history is the
same) and leaves the version-list cache unchanged. -/
theorem matches_fast_path (E : Env) (a : smAdapter) (id : ProjectIdentifier) (c : Constraint)
    (v : Version) (h : Constraint.Matches E.ops c v = true) :
    (smAdapter.matches E a id c v).1 = .ok true ∧
      (smAdapter.matches E a id c v).2.calls = a.calls ∧
      (smAdapter.matches E a id c v).2.vlists = a.vlists := by
  simp [smAdapter.matches, h]

theorem matches_fast_path_witness :
    Constraint.Matches fixtureEnv.ops (Ver.toC (.rev "A")) (.single tagV120) = true ∧
      (smAdapter.matches fixtureEnv (smAdapter.new false) projP (Ver.toC (.rev "A"))
        (.single tagV120)).1 = .ok true ∧
      (smAdapter.matches fixtureEnv (smAdapter.new false) projP (Ver.toC (.rev "A"))
        (.single tagV120)).2.calls = (smAdapter.new false).calls ∧
      (smAdapter.matches fixtureEnv (smAdapter.new false) projP (Ver.toC (.rev "A"))
        (.single tagV120)).2.vlists = (smAdapter.new false).vlists :=
  ⟨rfl, matches_fast_path fixtureEnv (smAdapter.new false) projP (Ver.toC (.rev "A"))
    (.single tagV120) rfl⟩

/-- C2: for a semver constraint `c` and a version `v` that fails the local
check, `matches(id, c, v)` returns without panic, and returns true exactly
when some element `pv` of `pairRevision(id, r)` has `c.Matches(pv)`: `r` is `v`
for a revision, `v.Underlying()` for a paired version, and for an unpaired
version the underlying revision of `pairVersion(id, v)`, the result being
false when that pairing is nil.  Scenario S1: with the list
[tag v1.2.0 at A, branch master at B, rev A], whatever the order the sort
leaves it in, `matches(id, ^1.0.0, Revision A)` is true. -/
theorem matches_semver :
    (∀ (E : Env) (a : smAdapter) (id : ProjectIdentifier) (tc : SemverRange) (r : Revision),
      Constraint.Matches E.ops (.semverConstraint tc) (.single (.rev r)) = false →
      ∃ b, (smAdapter.matches E a id (.semverConstraint tc) (.single (.rev r))).1 = .ok b ∧
        (b = true ↔ ∃ pv ∈ (smAdapter.pairRevision E a id r).1,
          Constraint.Matches E.ops (.semverConstraint tc) (.single pv) = true)) ∧
    (∀ (E : Env) (a : smAdapter) (id : ProjectIdentifier) (tc : SemverRange) (p : versionPair),
      Constraint.Matches E.ops (.semverConstraint tc) (.single (.paired p)) = false →
      ∃ b, (smAdapter.matches E a id (.semverConstraint tc) (.single (.paired p))).1 = .ok b ∧
        (b = true ↔ ∃ pv ∈ (smAdapter.pairRevision E a id p.Underlying).1,
          Constraint.Matches E.ops (.semverConstraint tc) (.single pv) = true)) ∧
    (∀ (E : Env) (a : smAdapter) (id : ProjectIdentifier) (tc : SemverRange)
        (u : UnpairedVersion),
      Constraint.Matches E.ops (.semverConstraint tc) (.single (.unpaired u)) = false →
      ∃ b, (smAdapter.matches E a id (.semverConstraint tc) (.single (.unpaired u))).1 = .ok b ∧
        (b = true ↔ ∃ p, (smAdapter.pairVersion E a id u).1 = some p ∧
          ∃ pv ∈ (smAdapter.pairRevision E (smAdapter.pairVersion E a id u).2 id
              p.Underlying).1,
            Constraint.Matches E.ops (.semverConstraint tc) (.single pv) = true)) ∧
    (∀ (sort : (Ver → Ver → Bool) → List Ver → List Ver) (sortdown : Bool),
      SortContract sort →
      (smAdapter.matches { ops := specOps, sm := constSM fixtureList, sort := sort }
        (smAdapter.new sortdown) projP (.semverConstraint caret1) (.single (.rev "A"))).1 =
        .ok true) := by
  refine ⟨?_, ?_, ?_, ?_⟩
  · intro E a id tc r h
    refine ⟨(smAdapter.pairRevision E a id r).1.any fun pv =>
      Constraint.Matches E.ops (.semverConstraint tc) (.single pv), ?_, ?_⟩
    · simp only [smAdapter.matches, h]
      rfl
    · simp [List.any_eq_true]
  · intro E a id tc p h
    refine ⟨(smAdapter.pairRevision E a id p.Underlying).1.any fun pv =>
      Constraint.Matches E.ops (.semverConstraint tc) (.single pv), ?_, ?_⟩
    · simp only [smAdapter.matches, h]
      rfl
    · simp [List.any_eq_true]
  · intro E a id tc u h
    cases hp : smAdapter.pairVersion E a id u with
    | mk o a1 =>
      cases o with
      | none =>
        refine ⟨false, ?_, ?_⟩
        · simp [smAdapter.matches, h, hp]
        · simp
      | some pv =>
        refine ⟨(smAdapter.pairRevision E a1 id pv.Underlying).1.any fun ttv =>
          Constraint.Matches E.ops (.semverConstraint tc) (.single ttv), ?_, ?_⟩
        · simp only [smAdapter.matches, h, hp]
          rfl
        · simp [List.any_eq_true]
  · intro sort sortdown hsort
    have hl := listVersions_miss_ok { ops := specOps, sm := constSM fixtureList, sort := sort }
      (smAdapter.new sortdown) projP fixtureList rfl rfl
    have hperm := sorted_perm { ops := specOps, sm := constSM fixtureList, sort := sort }
      hsort (smAdapter.new sortdown).sortdown fixtureList
    generalize (if (smAdapter.new sortdown).sortdown = true then
      Env.sort { ops := specOps, sm := constSM fixtureList, sort := sort }
        downgradeVersionSorter.Less fixtureList
      else Env.sort { ops := specOps, sm := constSM fixtureList, sort := sort }
        upgradeVersionSorter.Less fixtureList) = l at hl hperm
    have hmem : tagV120 ∈ pairsOf specOps "A" l := by
      rw [mem_pairsOf]
      exact ⟨_, rfl, hperm.mem_iff.mpr (by simp [fixtureList]), rfl⟩
    cases hlv : smAdapter.listVersions { ops := specOps, sm := constSM fixtureList, sort := sort }
      (smAdapter.new sortdown) projP with
    | mk res a1 =>
      rw [hlv] at hl
      simp only at hl
      subst hl
      have hloc : Constraint.Matches specOps (.semverConstraint caret1) (.single (.rev "A"))
          = false := rfl
      simp only [smAdapter.matches, hloc, smAdapter.pairRevision, hlv]
      simp only [Bool.false_eq_true, if_false, List.any_cons, Except.ok.injEq, Bool.or_eq_true,
        List.any_eq_true]
      exact Or.inr ⟨tagV120, hmem, rfl⟩

theorem matches_semver_witness :
    Constraint.Matches fixtureEnv.ops (.semverConstraint caret1) (.single (.rev "A")) = false ∧
    ∃ b, (smAdapter.matches fixtureEnv (smAdapter.new false) projP (.semverConstraint caret1)
        (.single (.rev "A"))).1 = .ok b ∧
      (b = true ↔ ∃ pv ∈ (smAdapter.pairRevision fixtureEnv (smAdapter.new false) projP "A").1,
        Constraint.Matches fixtureEnv.ops (.semverConstraint caret1) (.single pv) = true) :=
  ⟨rfl, matches_semver.1 fixtureEnv (smAdapter.new false) projP caret1 "A" rfl⟩

/-- C3: for an unpaired version `uc` used as the constraint and a version `v`
that fails the local check, `matches(id, uc, v)` returns without panic.  When
`v` is a revision or a paired version it returns true exactly when
`pairVersion(id, uc)` is non-nil and matches `v`; when `v` is an unpaired
version, exactly when `pairVersion(id, v)` and then `pairVersion(id, uc)` are
both non-nil and the second matches the first.  Scenario S2: with the list
[tag v1.2.0 at A, branch master at B, rev A], in whatever order the sort
leaves it, the constraint `master` matches revision `B` and does not match
revision `A`. -/
theorem matches_unpaired_constraint :
    (∀ (E : Env) (a : smAdapter) (id : ProjectIdentifier) (uc : UnpairedVersion) (r : Revision),
      Constraint.Matches E.ops (Ver.toC (.unpaired uc)) (.single (.rev r)) = false →
      ∃ b, (smAdapter.matches E a id (Ver.toC (.unpaired uc)) (.single (.rev r))).1 = .ok b ∧
        (b = true ↔ ∃ pc, (smAdapter.pairVersion E a id uc).1 = some pc ∧
          Constraint.Matches E.ops (Ver.toC (.paired pc)) (.single (.rev r)) = true)) ∧
    (∀ (E : Env) (a : smAdapter) (id : ProjectIdentifier) (uc : UnpairedVersion)
        (p : versionPair),
      Constraint.Matches E.ops (Ver.toC (.unpaired uc)) (.single (.paired p)) = false →
      ∃ b, (smAdapter.matches E a id (Ver.toC (.unpaired uc)) (.single (.paired p))).1 = .ok b ∧
        (b = true ↔ ∃ pc, (smAdapter.pairVersion E a id uc).1 = some pc ∧
          Constraint.Matches E.ops (Ver.toC (.paired pc)) (.single (.paired p)) = true)) ∧
    (∀ (E : Env) (a : smAdapter) (id : ProjectIdentifier) (uc uv : UnpairedVersion),
      Constraint.Matches E.ops (Ver.toC (.unpaired uc)) (.single (.unpaired uv)) = false →
      ∃ b, (smAdapter.matches E a id (Ver.toC (.unpaired uc)) (.single (.unpaired uv))).1 =
          .ok b ∧
        (b = true ↔ ∃ pv pc, (smAdapter.pairVersion E a id uv).1 = some pv ∧
          (smAdapter.pairVersion E (smAdapter.pairVersion E a id uv).2 id uc).1 = some pc ∧
          Constraint.Matches E.ops (Ver.toC (.paired pc)) (.single (.paired pv)) = true)) ∧
    (∀ (sort : (Ver → Ver → Bool) → List Ver → List Ver) (sortdown : Bool),
      SortContract sort →
      (smAdapter.matches { ops := specOps, sm := constSM fixtureList, sort := sort }
        (smAdapter.new sortdown) projP (Ver.toC (.unpaired (.branchVersion "master")))
        (.single (.rev "B"))).1 = .ok true ∧
      (smAdapter.matches { ops := specOps, sm := constSM fixtureList, sort := sort }
        (smAdapter.new sortdown) projP (Ver.toC (.unpaired (.branchVersion "master")))
        (.single (.rev "A"))).1 = .ok false) := by
  refine ⟨?_, ?_, ?_, ?_⟩
  · intro E a id uc r h
    cases hp : smAdapter.pairVersion E a id uc with
    | mk o a1 =>
      cases o with
      | none => exact ⟨false, by simp [smAdapter.matches, h, hp], by simp⟩
      | some pc =>
        exact ⟨Constraint.Matches E.ops (Ver.toC (.paired pc)) (.single (.rev r)),
          by simp [smAdapter.matches, h, hp], by simp⟩
  · intro E a id uc p h
    cases hp : smAdapter.pairVersion E a id uc with
    | mk o a1 =>
      cases o with
      | none => exact ⟨false, by simp [smAdapter.matches, h, hp], by simp⟩
      | some pc =>
        exact ⟨Constraint.Matches E.ops (Ver.toC (.paired pc)) (.single (.paired p)),
          by simp [smAdapter.matches, h, hp], by simp⟩
  · intro E a id uc uv h
    cases hv : smAdapter.pairVersion E a id uv with
    | mk o a1 =>
      cases o with
      | none => exact ⟨false, by simp [smAdapter.matches, h, hv], by simp⟩
      | some pv =>
        cases hc : smAdapter.pairVersion E a1 id uc with
        | mk oc a2 =>
          cases oc with
          | none => exact ⟨false, by simp [smAdapter.matches, h, hv, hc], by simp [hc]⟩
          | some pc =>
            exact ⟨Constraint.Matches E.ops (Ver.toC (.paired pc)) (.single (.paired pv)),
              by simp [smAdapter.matches, h, hv, hc], by simp [hc]⟩
  · intro sort sortdown hsort
    obtain ⟨l, a1, hlv, hperm⟩ := fixture_listVersions sort sortdown hsort
    have hpair := fixture_pair_master l hperm
    have hB : Constraint.Matches specOps (Ver.toC (.unpaired (.branchVersion "master")))
        (.single (.rev "B")) = false := rfl
    have hA : Constraint.Matches specOps (Ver.toC (.unpaired (.branchVersion "master")))
        (.single (.rev "A")) = false := rfl
    constructor
    · simp only [smAdapter.matches, hB, smAdapter.pairVersion, hlv, hpair]
      rfl
    · simp only [smAdapter.matches, hA, smAdapter.pairVersion, hlv, hpair]
      rfl

theorem matches_unpaired_constraint_witness :
    Constraint.Matches fixtureEnv.ops (Ver.toC (.unpaired (.branchVersion "master")))
        (.single (.rev "B")) = false ∧
    ∃ b, (smAdapter.matches fixtureEnv (smAdapter.new false) projP
        (Ver.toC (.unpaired (.branchVersion "master"))) (.single (.rev "B"))).1 = .ok b ∧
      (b = true ↔ ∃ pc, (smAdapter.pairVersion fixtureEnv (smAdapter.new false) projP
          (.branchVersion "master")).1 = some pc ∧
        Constraint.Matches fixtureEnv.ops (Ver.toC (.paired pc)) (.single (.rev "B")) = true) :=
  ⟨rfl, matches_unpaired_constraint.1 fixtureEnv (smAdapter.new false) projP
    (.branchVersion "master") "B" rfl⟩

/-- C4: for a revision `r` and a paired version `p` with `p.Underlying() == r`,
`matches(id, r, p)` and `matches(id, p, r)` are both true, whatever the cache
holds and whatever the SourceManager answers (with the constraint methods of
the specification).  More generally, for every implementation of the
constraint methods each of the two calls returns exactly its local check and
leaves the adapter as it was: the cache and the SourceManager play no part. -/
theorem matches_revision_paired (sm : SourceManager)
    (sort : (Ver → Ver → Bool) → List Ver → List Ver) (a : smAdapter) (id : ProjectIdentifier)
    (r : Revision) (p : versionPair) (h : p.Underlying = r) :
    ((smAdapter.matches { ops := specOps, sm := sm, sort := sort } a id (Ver.toC (.rev r))
        (.single (.paired p))).1 = .ok true ∧
      (smAdapter.matches { ops := specOps, sm := sm, sort := sort } a id (Ver.toC (.paired p))
        (.single (.rev r))).1 = .ok true) ∧
    (∀ L : LocalOps,
      smAdapter.matches { ops := L, sm := sm, sort := sort } a id (Ver.toC (.rev r))
          (.single (.paired p)) =
        (.ok (Constraint.Matches L (Ver.toC (.rev r)) (.single (.paired p))), a) ∧
      smAdapter.matches { ops := L, sm := sm, sort := sort } a id (Ver.toC (.paired p))
          (.single (.rev r)) =
        (.ok (Constraint.Matches L (Ver.toC (.paired p)) (.single (.rev r))), a)) := by
  have h1 : Constraint.Matches specOps (Ver.toC (.rev r)) (.single (.paired p)) = true := by
    simp [Constraint.Matches, specOps, specMatches, specMatchesVer, ← h, versionPair.Underlying]
  have h2 : Constraint.Matches specOps (Ver.toC (.paired p)) (.single (.rev r)) = true := by
    simp [Constraint.Matches, specOps, specMatches, specMatchesVer, ← h, versionPair.Underlying]
  refine ⟨⟨?_, ?_⟩, ?_⟩
  · simp [smAdapter.matches, h1]
  · simp [smAdapter.matches, h2]
  · intro L
    constructor
    · cases hl : Constraint.Matches L (Ver.toC (.rev r)) (.single (.paired p)) <;>
        simp [smAdapter.matches, hl]
    · cases hl : Constraint.Matches L (Ver.toC (.paired p)) (.single (.rev r)) <;>
        simp [smAdapter.matches, hl]

theorem matches_revision_paired_witness :
    (versionPair.Underlying { v := .semVersion (sv 1 2 0), r := "A" } = "A") ∧
    (smAdapter.matches { ops := specOps, sm := failSM, sort := refSort } (smAdapter.new false)
        projP (Ver.toC (.rev "A")) (.single tagV120)).1 = .ok true ∧
    (smAdapter.matches { ops := specOps, sm := failSM, sort := refSort } (smAdapter.new false)
        projP (Ver.toC tagV120) (.single (.rev "A"))).1 = .ok true :=
  ⟨rfl, (matches_revision_paired failSM refSort (smAdapter.new false) projP "A"
    { v := .semVersion (sv 1 2 0), r := "A" } rfl).1⟩

/-- C5, counterexample: the SourceManager fails at its first `ListVersions`
call and answers [branch master at A] from the second call on.  On the same
new adapter, `matchesAny(id, Revision A, master)` is false: the revision is
coerced first, while the list cannot be fetched, to the empty union.
`matchesAny(id, master, Revision A)` is true: `master` is coerced first, to the
union of itself alone, the revision is coerced after the fetch succeeded, and
`master` matches its paired form in that union. -/
theorem matchesAny_not_commutative :
    (smAdapter.matchesAny { ops := specOps, sm := flakySM [masterA], sort := refSort }
        (smAdapter.new false) projP (Ver.toC (.rev "A"))
        (Ver.toC (.unpaired (.branchVersion "master")))).1 = false ∧
    (smAdapter.matchesAny { ops := specOps, sm := flakySM [masterA], sort := refSort }
        (smAdapter.new false) projP (Ver.toC (.unpaired (.branchVersion "master")))
        (Ver.toC (.rev "A"))).1 = true :=
  ⟨rfl, rfl⟩

/-- C5, amended: for all constraints `c1` and `c2` of the documented variants
(every variant other than the solver-internal union) and every identifier,
over the same adapter state, `matchesAny(id, c1, c2)` equals
`matchesAny(id, c2, c1)`, unless the version list for the key of `id` is not
cached, the `ListVersions` call of the SourceManager fails and the call right
after that failure succeeds (with the constraint methods of the
specification). -/
theorem matchesAny_comm_documented (sm : SourceManager)
    (sort : (Ver → Ver → Bool) → List Ver → List Ver) (a : smAdapter) (id : ProjectIdentifier)
    (c1 c2 : Constraint)
    (h1 : ∀ av, c1 ≠ .version (.union av)) (h2 : ∀ av, c2 ≠ .version (.union av))
    (h : ¬ RetrySucceeds sm id a) :
    (smAdapter.matchesAny { ops := specOps, sm := sm, sort := sort } a id c1 c2).1 =
      (smAdapter.matchesAny { ops := specOps, sm := sm, sort := sort } a id c2 c1).1 := by
  obtain ⟨res, hv⟩ := matchesAny_one_list { ops := specOps, sm := sm, sort := sort } id a h
  rw [hv c1 c2, hv c2 c1]
  exact specOps_checks_symm res c1 c2 h1 h2

theorem matchesAny_comm_documented_witness :
    (∀ av, Constraint.semverConstraint caret1 ≠ .version (.union av)) ∧
    (∀ av, Ver.toC (.rev "A") ≠ .version (.union av)) ∧
    ¬ RetrySucceeds (constSM fixtureList) projP (smAdapter.new false) ∧
    (smAdapter.matchesAny fixtureEnv (smAdapter.new false) projP (.semverConstraint caret1)
        (Ver.toC (.rev "A"))).1 =
      (smAdapter.matchesAny fixtureEnv (smAdapter.new false) projP (Ver.toC (.rev "A"))
        (.semverConstraint caret1)).1 :=
  ⟨fun _ h => (nomatch h), fun _ h => (nomatch h), constSM_no_retry _ _ _,
    matchesAny_comm_documented (constSM fixtureList) refSort (smAdapter.new false) projP
      (.semverConstraint caret1) (Ver.toC (.rev "A")) (fun _ h => (nomatch h))
      (fun _ h => (nomatch h)) (constSM_no_retry _ _ _)⟩

/-- C6: for a semver constraint `c1` and a revision `r`, when the version
list of the project contains a paired version whose underlying revision is `r`
and which `c1` matches, `matchesAny(id, c1, r)` returns true (with the
constraint methods of the specification).  Scenario S3: with the list
[tag v1.2.0 at A, branch master at B, rev A], in whatever order the sort leaves
it, `matchesAny(id, ^1.0.0, Revision A)` is true. -/
theorem matchesAny_semver_revision :
    (∀ (sm : SourceManager) (sort : (Ver → Ver → Bool) → List Ver → List Ver) (a : smAdapter)
        (id : ProjectIdentifier) (c1 : SemverRange) (r : Revision) (vl : List Ver)
        (pv : versionPair),
      (smAdapter.listVersions { ops := specOps, sm := sm, sort := sort } a id).1 = .ok vl →
      Ver.paired pv ∈ vl → pv.Underlying = r →
      Constraint.Matches specOps (.semverConstraint c1) (.single (.paired pv)) = true →
      (smAdapter.matchesAny { ops := specOps, sm := sm, sort := sort } a id
        (.semverConstraint c1) (Ver.toC (.rev r))).1 = true) ∧
    (∀ (sort : (Ver → Ver → Bool) → List Ver → List Ver) (sortdown : Bool),
      SortContract sort →
      (smAdapter.matchesAny { ops := specOps, sm := constSM fixtureList, sort := sort }
        (smAdapter.new sortdown) projP (.semverConstraint caret1) (Ver.toC (.rev "A"))).1 =
        true) := by
  have key : ∀ (sm : SourceManager) (sort : (Ver → Ver → Bool) → List Ver → List Ver)
      (a : smAdapter) (id : ProjectIdentifier) (c1 : SemverRange) (r : Revision) (vl : List Ver)
      (pv : versionPair),
      (smAdapter.listVersions { ops := specOps, sm := sm, sort := sort } a id).1 = .ok vl →
      Ver.paired pv ∈ vl → pv.Underlying = r →
      Constraint.Matches specOps (.semverConstraint c1) (.single (.paired pv)) = true →
      (smAdapter.matchesAny { ops := specOps, sm := sm, sort := sort } a id
        (.semverConstraint c1) (Ver.toC (.rev r))).1 = true := by
    intro sm sort a id c1 r vl pv hl hmem hr hm
    have hin : Ver.paired pv ∈ pairsOf specOps r vl := by
      rw [mem_pairsOf]
      refine ⟨pv, rfl, hmem, ?_⟩
      simp [Constraint.Matches, specOps, specMatches, specMatchesVer, ← hr,
        versionPair.Underlying]
    have hany : specMatchesAnyC (.semverConstraint c1) (Ver.toC (.paired pv)) = true := hm
    cases hlv : smAdapter.listVersions { ops := specOps, sm := sm, sort := sort } a id with
    | mk res a1 =>
      rw [hlv] at hl
      simp only at hl
      subst hl
      by_cases hloc : Constraint.MatchesAny specOps (.semverConstraint c1) (Ver.toC (.rev r))
          = true
      · simp [smAdapter.matchesAny, hloc]
      · simp only [smAdapter.matchesAny, hloc, smAdapter.coerce, smAdapter.vtu,
          smAdapter.pairRevision, hlv]
        simp only [Bool.false_eq_true, if_false, Constraint.MatchesAny, specOps, specMatchesAny,
          List.any_cons, Bool.or_eq_true, List.any_eq_true]
        exact Or.inr ⟨_, hin, hany⟩
  refine ⟨key, ?_⟩
  intro sort sortdown hsort
  obtain ⟨l, a1, hlv, hperm⟩ := fixture_listVersions sort sortdown hsort
  exact key (constSM fixtureList) sort (smAdapter.new sortdown) projP caret1 "A" l
    { v := .semVersion (sv 1 2 0), r := "A" } (by rw [hlv])
    (hperm.mem_iff.mpr (by simp [fixtureList, tagV120])) rfl rfl

theorem matchesAny_semver_revision_witness :
    (smAdapter.listVersions fixtureEnv (smAdapter.new false) projP).1 = .ok fixtureList ∧
    tagV120 ∈ fixtureList ∧
    (smAdapter.matchesAny fixtureEnv (smAdapter.new false) projP (.semverConstraint caret1)
      (Ver.toC (.rev "A"))).1 = true :=
  ⟨rfl, by decide,
    matchesAny_semver_revision.1 (constSM fixtureList) refSort (smAdapter.new false) projP caret1
      "A" fixtureList { v := .semVersion (sv 1 2 0), r := "A" } rfl (by decide) rfl rfl⟩

/-- C7: with the constraint methods of the specification,
`intersect(id, c, none)` is `none` for every constraint `c` (a bare version is
coerced to its union after the local intersection gave `none`, and the union
intersects to `none` too), and `intersect(id, c, any)` is `c` for every
constraint `c` of a documented variant, that is every `c` other than the
solver-internal union.  Scenario S6: `intersect(id, none, any)` is `none`. -/
theorem intersect_none_any (sm : SourceManager)
    (sort : (Ver → Ver → Bool) → List Ver → List Ver) (a : smAdapter) (id : ProjectIdentifier) :
    (∀ c : Constraint,
      (smAdapter.intersect { ops := specOps, sm := sm, sort := sort } a id c
        .noneConstraint).1 = .noneConstraint) ∧
    (∀ c : Constraint, (∀ av, c ≠ .version (.union av)) →
      (smAdapter.intersect { ops := specOps, sm := sm, sort := sort } a id c
        .anyConstraint).1 = c) ∧
    (smAdapter.intersect { ops := specOps, sm := sm, sort := sort } a id .noneConstraint
      .anyConstraint).1 = .noneConstraint := by
  refine ⟨?_, ?_, ?_⟩
  · intro c
    simp only [smAdapter.intersect, specOps_intersect_none, Constraint.isNone, if_true,
      coerce_noneConstraint]
  · intro c hc
    cases c with
    | version v =>
      cases v with
      | single x => cases x <;> rfl
      | union av => exact absurd rfl (hc av)
    | semverConstraint r => rfl
    | noneConstraint => rfl
    | anyConstraint => rfl
  · rfl

theorem intersect_none_any_witness :
    (∀ av, Ver.toC tagV120 ≠ .version (.union av)) ∧
    (smAdapter.intersect fixtureEnv (smAdapter.new false) projP (Ver.toC tagV120)
      .anyConstraint).1 = Ver.toC tagV120 :=
  ⟨fun _ h => (nomatch h),
    (intersect_none_any (constSM fixtureList) refSort (smAdapter.new false) projP).2.1
      (Ver.toC tagV120) (fun _ h => (nomatch h))⟩

/-- C8: once a `listVersions(id)` call has succeeded with the list `vl`, then
after any sequence of adapter calls a `listVersions` call for the same key
returns `vl` again, without error, and leaves the adapter as it is: no
`ListVersions` call is added to the history.  Hence, starting from a new
adapter, the history never holds two successful `ListVersions` calls for one
key. -/
theorem listVersions_cached_forever (E : Env) :
    (∀ (a : smAdapter) (id : ProjectIdentifier) (vl : List Ver),
      (smAdapter.listVersions E a id).1 = .ok vl →
      ∀ (cs : List Call) (id2 : ProjectIdentifier), smAdapter.key id2 = smAdapter.key id →
        smAdapter.listVersions E (runAll E (smAdapter.listVersions E a id).2 cs) id2 =
          (.ok vl, runAll E (smAdapter.listVersions E a id).2 cs)) ∧
    (∀ (sortdown : Bool) (cs : List Call) (k : ProjectName),
      (runAll E (smAdapter.new sortdown) cs).calls.count (k, true) ≤ 1) := by
  constructor
  · intro a id vl h cs id2 hk
    apply listVersions_hit
    rw [hk]
    exact grows_keeps E _ _ _ vl (grows_runAll E _ cs) (listVersions_ok_cached E a id vl h)
  · intro sortdown cs k
    have h0 : HistoryOk (smAdapter.new sortdown) := by
      intro k2
      simp [smAdapter.new]
    exact (grows_historyOk E _ _ (grows_runAll E _ cs) h0 k).2

theorem listVersions_cached_forever_witness :
    (smAdapter.listVersions fixtureEnv (smAdapter.new false) projP).1 = .ok fixtureList ∧
    smAdapter.key projP = smAdapter.key projP ∧
    smAdapter.listVersions fixtureEnv
        (runAll fixtureEnv (smAdapter.listVersions fixtureEnv (smAdapter.new false) projP).2
          [.test projP (.semverConstraint caret1) (.single (.rev "A")), .list projP])
        projP =
      (.ok fixtureList,
        runAll fixtureEnv (smAdapter.listVersions fixtureEnv (smAdapter.new false) projP).2
          [.test projP (.semverConstraint caret1) (.single (.rev "A")), .list projP]) :=
  ⟨rfl, rfl,
    (listVersions_cached_forever fixtureEnv).1 (smAdapter.new false) projP fixtureList rfl
      [.test projP (.semverConstraint caret1) (.single (.rev "A")), .list projP] projP rfl⟩

/-- C9: when the list is not cached and the SourceManager's `ListVersions`
returns an error, `listVersions(id)` returns that error and no list, and
leaves the cache map exactly as it was; the failed call is all that is added to
the history.  The next `listVersions(id)` call therefore calls the
SourceManager's `ListVersions` again: the history gets one more call for the
key, and the result of that call decides what is returned. -/
theorem listVersions_error_not_cached (E : Env) (a : smAdapter) (id : ProjectIdentifier)
    (err : SMError) (hmiss : a.vlists (smAdapter.key id) = none)
    (herr : E.sm.ListVersions a.calls (smAdapter.key id) = .error err) :
    (smAdapter.listVersions E a id).1 = .error err ∧
    (smAdapter.listVersions E a id).2.vlists = a.vlists ∧
    (smAdapter.listVersions E a id).2.calls = a.calls ++ [(smAdapter.key id, false)] ∧
    (∃ ok, (smAdapter.listVersions E (smAdapter.listVersions E a id).2 id).2.calls =
      a.calls ++ [(smAdapter.key id, false)] ++ [(smAdapter.key id, ok)]) ∧
    (∀ err2, E.sm.ListVersions (a.calls ++ [(smAdapter.key id, false)]) (smAdapter.key id) =
        .error err2 →
      (smAdapter.listVersions E (smAdapter.listVersions E a id).2 id).1 = .error err2) ∧
    (∀ vl, E.sm.ListVersions (a.calls ++ [(smAdapter.key id, false)]) (smAdapter.key id) =
        .ok vl →
      (smAdapter.listVersions E (smAdapter.listVersions E a id).2 id).1 =
        .ok (if a.sortdown then E.sort downgradeVersionSorter.Less vl
          else E.sort upgradeVersionSorter.Less vl)) := by
  have h1 : smAdapter.listVersions E a id =
      (.error err, { a with calls := a.calls ++ [(smAdapter.key id, false)] }) := by
    simp [smAdapter.listVersions, hmiss, herr]
  rw [h1]
  refine ⟨rfl, rfl, rfl, ?_, ?_, ?_⟩
  · cases hs : E.sm.ListVersions (a.calls ++ [(smAdapter.key id, false)]) (smAdapter.key id) with
    | error e2 => exact ⟨false, by simp [smAdapter.listVersions, hmiss, hs]⟩
    | ok vl => exact ⟨true, by simp [smAdapter.listVersions, hmiss, hs]⟩
  · intro err2 hs
    simp [smAdapter.listVersions, hmiss, hs]
  · intro vl hs
    simp [smAdapter.listVersions, hmiss, hs]

theorem listVersions_error_not_cached_witness :
    (smAdapter.listVersions { ops := specOps, sm := flakySM fixtureList, sort := refSort }
        (smAdapter.new false) projP).1 = .error "network" ∧
    (smAdapter.listVersions { ops := specOps, sm := flakySM fixtureList, sort := refSort }
        (smAdapter.new false) projP).2.vlists = (smAdapter.new false).vlists ∧
    (smAdapter.listVersions { ops := specOps, sm := flakySM fixtureList, sort := refSort }
        (smAdapter.new false) projP).2.calls = [("P", false)] :=
  ⟨(listVersions_error_not_cached
      { ops := specOps, sm := flakySM fixtureList, sort := refSort } (smAdapter.new false) projP
      "network" rfl rfl).1,
    (listVersions_error_not_cached
      { ops := specOps, sm := flakySM fixtureList, sort := refSort } (smAdapter.new false) projP
      "network" rfl rfl).2.1,
    (listVersions_error_not_cached
      { ops := specOps, sm := flakySM fixtureList, sort := refSort } (smAdapter.new false) projP
      "network" rfl rfl).2.2.1⟩

/-- C10: on a cache miss with a successful fetch, `listVersions(id)` returns a
permutation of the list the SourceManager supplied, in the order of the sorter
that `sortdown` selects: no element is `Less` than an element that precedes it
(`upgradeVersionSorter.Less` when `sortdown` is false,
`downgradeVersionSorter.Less` when it is true); neither `Less` panics.  This
holds for every sort that meets the contract of `sort.Sort`.  Scenarios S4 and
S5: the input [v1.0.0, v2.0.0-alpha, v2.0.0, v1.5.0] yields
[v2.0.0, v1.5.0, v1.0.0, v2.0.0-alpha] for the upgrade sort and
[v1.0.0, v1.5.0, v2.0.0, v2.0.0-alpha] for the downgrade sort. -/
theorem listVersions_sorted :
    (∀ (E : Env) (a : smAdapter) (id : ProjectIdentifier) (vl : List Ver),
      SortContract E.sort → a.vlists (smAdapter.key id) = none →
      E.sm.ListVersions a.calls (smAdapter.key id) = .ok vl →
      ∃ l, (smAdapter.listVersions E a id).1 = .ok l ∧ l.Perm vl ∧
        (a.sortdown = false →
          l.Pairwise (fun x y => upgradeVersionSorter.Less y x = false)) ∧
        (a.sortdown = true →
          l.Pairwise (fun x y => downgradeVersionSorter.Less y x = false))) ∧
    (∀ x y : Ver, (upgradeVersionSorter.Less? x y).isSome = true ∧
      (downgradeVersionSorter.Less? x y).isSome = true) ∧
    (∀ (L : LocalOps) (sort : (Ver → Ver → Bool) → List Ver → List Ver), SortContract sort →
      (smAdapter.listVersions { ops := L, sm := constSM sortInput, sort := sort }
        (smAdapter.new false) projP).1 = .ok sortedUp) ∧
    (∀ (L : LocalOps) (sort : (Ver → Ver → Bool) → List Ver → List Ver), SortContract sort →
      (smAdapter.listVersions { ops := L, sm := constSM sortInput, sort := sort }
        (smAdapter.new true) projP).1 = .ok sortedDown) := by
  refine ⟨?_, ?_, ?_, ?_⟩
  · intro E a id vl hsort hmiss hok
    refine ⟨_, listVersions_miss_ok E a id vl hmiss hok, sorted_perm E hsort _ vl, ?_, ?_⟩
    · intro hd
      simp only [hd, Bool.false_eq_true, if_false]
      exact hsort.sorted _ _ upLess_strictWeak
    · intro hd
      simp only [hd, if_true]
      exact hsort.sorted _ _ downLess_strictWeak
  · intro x y
    exact ⟨sorterLess_isSome _ x y, sorterLess_isSome _ x y⟩
  · intro L sort hsort
    have h := listVersions_miss_ok { ops := L, sm := constSM sortInput, sort := sort }
      (smAdapter.new false) projP sortInput rfl rfl
    rw [h]
    congr 1
    apply sorted_perm_unique upgradeVersionSorter.Less
    · exact (hsort.perm _ _).trans (by decide)
    · exact hsort.sorted _ _ upLess_strictWeak
    · decide
    · intro x hx y hy h1 h2
      simp only [sortedUp, List.mem_cons, List.mem_singleton, List.not_mem_nil, or_false] at hx hy
      rcases hx with rfl | rfl | rfl | rfl <;> rcases hy with rfl | rfl | rfl | rfl <;>
        first
        | rfl
        | exact absurd h1 (by decide)
        | exact absurd h2 (by decide)
  · intro L sort hsort
    have h := listVersions_miss_ok { ops := L, sm := constSM sortInput, sort := sort }
      (smAdapter.new true) projP sortInput rfl rfl
    rw [h]
    congr 1
    apply sorted_perm_unique downgradeVersionSorter.Less
    · exact (hsort.perm _ _).trans (by decide)
    · exact hsort.sorted _ _ downLess_strictWeak
    · decide
    · intro x hx y hy h1 h2
      simp only [sortedDown, List.mem_cons, List.mem_singleton, List.not_mem_nil, or_false] at hx hy
      rcases hx with rfl | rfl | rfl | rfl <;> rcases hy with rfl | rfl | rfl | rfl <;>
        first
        | rfl
        | exact absurd h1 (by decide)
        | exact absurd h2 (by decide)

theorem listVersions_sorted_witness :
    ∃ l, (smAdapter.listVersions fixtureEnv (smAdapter.new false) projP).1 = .ok l ∧
      l.Perm fixtureList ∧
      ((smAdapter.new false).sortdown = false →
        l.Pairwise (fun x y => upgradeVersionSorter.Less y x = false)) ∧
      ((smAdapter.new false).sortdown = true →
        l.Pairwise (fun x y => downgradeVersionSorter.Less y x = false)) :=
  listVersions_sorted.1 fixtureEnv (smAdapter.new false) projP fixtureList refSort_contract
    rfl rfl

/-- C11: for two semantic versions `l` and `r`, bare or wrapped in a
`versionPair`, where `l` is a full release and `r` a pre-release, `Less(l, r)`
is true and `Less(r, l)` is false under both sorters, whatever the version
numbers.  Hence, with a sort that meets the contract of `sort.Sort`, in every
list that `listVersions` returns on an adapter that started new, after any
sequence of calls and in either direction, no pre-release stands before a full
release. -/
theorem prerelease_after_release :
    (∀ l r : Ver, isFullRelease l = true → isPreRelease r = true →
      upgradeVersionSorter.Less l r = true ∧ upgradeVersionSorter.Less r l = false ∧
        downgradeVersionSorter.Less l r = true ∧ downgradeVersionSorter.Less r l = false) ∧
    (∀ (E : Env) (sortdown : Bool) (cs : List Call) (id : ProjectIdentifier) (vl : List Ver),
      SortContract E.sort →
      (smAdapter.listVersions E (runAll E (smAdapter.new sortdown) cs) id).1 = .ok vl →
      vl.Pairwise (fun x y => ¬ (isPreRelease x = true ∧ isFullRelease y = true))) := by
  refine ⟨full_less_pre, ?_⟩
  intro E sortdown cs id vl hsort hok
  have h0 : CacheSorted (smAdapter.new sortdown) := by
    intro k l hk
    simp [smAdapter.new] at hk
  have h1 : CacheSorted (runAll E (smAdapter.new sortdown) cs) :=
    grows_cacheSorted E hsort _ _ (grows_runAll E _ cs) h0
  have h2 := listVersions_cacheSorted E hsort _ id h1 _ vl (listVersions_ok_cached E _ id vl hok)
  refine h2.imp ?_
  intro x y hless hxy
  have hf := full_less_pre y x hxy.2 hxy.1
  generalize (smAdapter.listVersions E (runAll E (smAdapter.new sortdown) cs) id).2.sortdown = d
    at hless
  cases d
  · simp only [directedLess, Bool.false_eq_true, if_false] at hless
    rw [hf.1] at hless
    cases hless
  · simp only [directedLess, if_true] at hless
    rw [hf.2.2.1] at hless
    cases hless

theorem prerelease_after_release_witness :
    isFullRelease (semTag 1 0 0 "") = true ∧ isPreRelease (semTag 2 0 0 "alpha") = true ∧
    upgradeVersionSorter.Less (semTag 1 0 0 "") (semTag 2 0 0 "alpha") = true ∧
    upgradeVersionSorter.Less (semTag 2 0 0 "alpha") (semTag 1 0 0 "") = false ∧
    downgradeVersionSorter.Less (semTag 1 0 0 "") (semTag 2 0 0 "alpha") = true ∧
    downgradeVersionSorter.Less (semTag 2 0 0 "alpha") (semTag 1 0 0 "") = false :=
  ⟨rfl, rfl, prerelease_after_release.1 (semTag 1 0 0 "") (semTag 2 0 0 "alpha") rfl rfl⟩

/-- C19: `key(id)` is `id.NetworkName` when that name is not empty and
`id.LocalName` otherwise; for an identifier with at least one non-empty name
the result is not empty. -/
theorem key_translation (id : ProjectIdentifier)
    (h : id.LocalName ≠ "" ∨ id.NetworkName ≠ "") :
    (id.NetworkName ≠ "" → smAdapter.key id = id.NetworkName) ∧
      (id.NetworkName = "" → smAdapter.key id = id.LocalName) ∧
      smAdapter.key id ≠ "" := by
  unfold smAdapter.key
  by_cases hn : id.NetworkName = ""
  · simp only [hn, if_true, ne_eq, not_true_eq_false, false_implies, true_implies, true_and]
    rcases h with h | h
    · exact h
    · exact absurd hn h
  · simp [hn]

theorem key_translation_witness :
    (projP.LocalName ≠ "" ∨ projP.NetworkName ≠ "") ∧
    (projP.NetworkName ≠ "" → smAdapter.key projP = projP.NetworkName) ∧
      (projP.NetworkName = "" → smAdapter.key projP = projP.LocalName) ∧
      smAdapter.key projP ≠ "" :=
  ⟨Or.inl (by decide), key_translation projP (Or.inl (by decide))⟩

/-- C12, counterexample: `any` matches a `versionTypeUnion` in the local check,
so `matches(id, any, union)` returns true at line 122 and does not reach the
panic of the default arm. -/
theorem matches_union_no_panic :
    (smAdapter.matches fixtureEnv (smAdapter.new false) projP .anyConstraint
      (.union [.rev "A"])).1 = .ok true :=
  rfl

/-- C12, amended: for a version `v` that is none of PairedVersion, Revision
and UnpairedVersion (a `versionTypeUnion`), `matches(id, c, v)` panics for
every constraint `c` whose local check `c.Matches(v)` fails, leaving the
adapter as it was; when the local check succeeds it returns true. -/
theorem matches_union_panics (E : Env) (a : smAdapter) (id : ProjectIdentifier)
    (c : Constraint) (av : List Ver) :
    (Constraint.Matches E.ops c (.union av) = false →
      smAdapter.matches E a id c (.union av) = (.error "unreachable", a)) ∧
    (Constraint.Matches E.ops c (.union av) = true →
      smAdapter.matches E a id c (.union av) = (.ok true, a)) := by
  constructor
  · intro h
    simp [smAdapter.matches, h]
  · intro h
    simp [smAdapter.matches, h]

theorem matches_union_panics_witness :
    Constraint.Matches fixtureEnv.ops .noneConstraint (.union [.rev "A"]) = false ∧
    smAdapter.matches fixtureEnv (smAdapter.new false) projP .noneConstraint
        (.union [.rev "A"]) = (.error "unreachable", smAdapter.new false) :=
  ⟨rfl, (matches_union_panics fixtureEnv (smAdapter.new false) projP .noneConstraint
    [.rev "A"]).1 rfl⟩

/-- C13, counterexample: with the empty `versionTypeUnion` as the constraint
the local check against revision `A` fails, no arm of the inner switch takes a
union, and `matches` falls out of the switch to the `return false` of line
225: it returns false and does not panic. -/
theorem matches_union_constraint_no_panic :
    (smAdapter.matches fixtureEnv (smAdapter.new false) projP (.version (.union []))
      (.single (.rev "A"))).1 = .ok false :=
  rfl

/-- C13, amended: for a version `v` that is a PairedVersion, a Revision or an
UnpairedVersion, `matches(id, c, v)` never panics, whatever the constraint
`c`; and when `c` is a `versionTypeUnion`, the variant that is not a column of
the decision table, and the local check fails, it returns false and leaves the
adapter as it was (no call to the SourceManager). -/
theorem matches_outside_table (E : Env) (a : smAdapter) (id : ProjectIdentifier) (x : Ver) :
    (∀ c : Constraint, ∃ b, (smAdapter.matches E a id c (.single x)).1 = .ok b) ∧
    (∀ av : List Ver, Constraint.Matches E.ops (.version (.union av)) (.single x) = false →
      smAdapter.matches E a id (.version (.union av)) (.single x) = (.ok false, a)) := by
  constructor
  · intro c
    exact matches_single_ok E a id c x
  · intro av h
    cases x <;> simp [smAdapter.matches, h]

theorem matches_outside_table_witness :
    Constraint.Matches fixtureEnv.ops (.version (.union [masterB])) (.single (.rev "A")) =
      false ∧
    smAdapter.matches fixtureEnv (smAdapter.new false) projP (.version (.union [masterB]))
        (.single (.rev "A")) = (.ok false, smAdapter.new false) :=
  ⟨rfl, (matches_outside_table fixtureEnv (smAdapter.new false) projP (.rev "A")).2 [masterB]
    rfl⟩

/-- C14: when the version list for `id` is not cached and the `ListVersions`
call of the SourceManager fails, then for every version `v` that is a
PairedVersion, a Revision or an UnpairedVersion and every constraint `c`,
`matches(id, c, v)` does not panic and returns exactly the local check
`c.Matches(v)`: the failure is not reported, and the result is false whenever
the local check fails. -/
theorem matches_degrades_on_failure (E : Env) (a : smAdapter) (id : ProjectIdentifier)
    (c : Constraint) (x : Ver) (err : SMError)
    (hmiss : a.vlists (smAdapter.key id) = none)
    (herr : E.sm.ListVersions a.calls (smAdapter.key id) = .error err) :
    (smAdapter.matches E a id c (.single x)).1 =
        .ok (Constraint.Matches E.ops c (.single x)) ∧
      (Constraint.Matches E.ops c (.single x) = false →
        (smAdapter.matches E a id c (.single x)).1 = .ok false) := by
  have h := matches_fetch_fails E a id c x err hmiss herr
  refine ⟨h, ?_⟩
  intro hloc
  rw [h, hloc]

theorem matches_degrades_on_failure_witness :
    (smAdapter.new false).vlists (smAdapter.key projP) = none ∧
    failSM.ListVersions (smAdapter.new false).calls (smAdapter.key projP) = .error "network" ∧
    (smAdapter.matches { ops := specOps, sm := failSM, sort := refSort } (smAdapter.new false)
        projP (.semverConstraint caret1) (.single (.rev "A"))).1 = .ok false :=
  ⟨rfl, rfl,
    (matches_degrades_on_failure { ops := specOps, sm := failSM, sort := refSort }
      (smAdapter.new false) projP (.semverConstraint caret1) (.rev "A") "network" rfl rfl).1⟩

/-- C15: `pairVersion(id, uv)` returns the first element, in the order of the
list returned by `listVersions(id)`, that is a PairedVersion and matches `uv`:
the list splits around the result into a front part, in which no paired version
matches `uv`, and the rest.  It returns nil if and only if the list fetch fails
or no PairedVersion in the list matches `uv`. -/
theorem pairVersion_first_match (E : Env) (a : smAdapter) (id : ProjectIdentifier)
    (uv : UnpairedVersion) :
    (∀ vl, (smAdapter.listVersions E a id).1 = .ok vl →
      ∀ p, (smAdapter.pairVersion E a id uv).1 = some p ↔
        ∃ l1 l2, vl = l1 ++ Ver.paired p :: l2 ∧
          Constraint.Matches E.ops (Ver.toC (.paired p)) (.single (.unpaired uv)) = true ∧
          ∀ q, Ver.paired q ∈ l1 →
            Constraint.Matches E.ops (Ver.toC (.paired q)) (.single (.unpaired uv)) = false) ∧
    ((smAdapter.pairVersion E a id uv).1 = none ↔
      (∃ err, (smAdapter.listVersions E a id).1 = .error err) ∨
      ∃ vl, (smAdapter.listVersions E a id).1 = .ok vl ∧
        ∀ q, Ver.paired q ∈ vl →
          Constraint.Matches E.ops (Ver.toC (.paired q)) (.single (.unpaired uv)) = false) := by
  unfold smAdapter.pairVersion
  cases hl : smAdapter.listVersions E a id with
  | mk res a1 =>
    cases res with
    | error e =>
      constructor
      · intro vl h
        cases h
      · simp
    | ok l =>
      constructor
      · intro vl h p
        simp only [Except.ok.injEq] at h
        subst h
        exact firstPair_some_iff E.ops uv l p
      · simp only [firstPair_none_iff, reduceCtorEq, exists_false, false_or, Except.ok.injEq,
          exists_eq_left']

theorem pairVersion_first_match_witness :
    (smAdapter.listVersions fixtureEnv (smAdapter.new false) projP).1 = .ok fixtureList ∧
    (smAdapter.pairVersion fixtureEnv (smAdapter.new false) projP (.branchVersion "master")).1 =
      some { v := .branchVersion "master", r := "B" } :=
  ⟨rfl,
    ((pairVersion_first_match fixtureEnv (smAdapter.new false) projP
      (.branchVersion "master")).1 fixtureList rfl { v := .branchVersion "master", r := "B" }).mpr
      ⟨[tagV120], [.rev "A"], rfl, rfl, by
        intro q hq
        simp only [tagV120, List.mem_singleton, Ver.paired.injEq] at hq
        subst hq
        rfl⟩⟩

/-- C16: when the list fetch succeeds, `pairRevision(id, r)` returns `r`
followed by exactly those elements of the list of `listVersions(id)` that are
PairedVersions whose underlying revision equals `r`, in the order of that list
(a bare revision of the list is never added); when the fetch fails it returns
the empty sequence.  This is with the `Matches` of the specification; for every
implementation of the constraint methods the elements kept are the paired
versions `pv` with `pv.Matches(r)`. -/
theorem pairRevision_contents (sm : SourceManager)
    (sort : (Ver → Ver → Bool) → List Ver → List Ver) (a : smAdapter) (id : ProjectIdentifier)
    (r : Revision) :
    (∀ vl, (smAdapter.listVersions { ops := specOps, sm := sm, sort := sort } a id).1 = .ok vl →
      (smAdapter.pairRevision { ops := specOps, sm := sm, sort := sort } a id r).1 =
        .rev r :: vl.filter fun x =>
          match x with
          | .paired pv => decide (pv.Underlying = r)
          | _ => false) ∧
    (∀ (L : LocalOps) (err : SMError),
      (smAdapter.listVersions { ops := L, sm := sm, sort := sort } a id).1 = .error err →
      (smAdapter.pairRevision { ops := L, sm := sm, sort := sort } a id r).1 = []) ∧
    (∀ (L : LocalOps) (vl : List Ver),
      (smAdapter.listVersions { ops := L, sm := sm, sort := sort } a id).1 = .ok vl →
      (smAdapter.pairRevision { ops := L, sm := sm, sort := sort } a id r).1 =
        .rev r :: vl.filter fun x =>
          match x with
          | .paired pv => Constraint.Matches L (Ver.toC (.paired pv)) (.single (.rev r))
          | _ => false) := by
  have gen : ∀ (L : LocalOps) (vl : List Ver),
      (smAdapter.listVersions { ops := L, sm := sm, sort := sort } a id).1 = .ok vl →
      (smAdapter.pairRevision { ops := L, sm := sm, sort := sort } a id r).1 =
        .rev r :: vl.filter fun x =>
          match x with
          | .paired pv => Constraint.Matches L (Ver.toC (.paired pv)) (.single (.rev r))
          | _ => false := by
    intro L vl h
    unfold smAdapter.pairRevision
    cases hl : smAdapter.listVersions { ops := L, sm := sm, sort := sort } a id with
    | mk res a1 =>
      rw [hl] at h
      simp only at h
      subst h
      simp only [pairsOf_eq_filter]
  refine ⟨?_, ?_, gen⟩
  · intro vl h
    exact gen specOps vl h
  · intro L err h
    unfold smAdapter.pairRevision
    cases hl : smAdapter.listVersions { ops := L, sm := sm, sort := sort } a id with
    | mk res a1 =>
      rw [hl] at h
      simp only at h
      subst h
      rfl

theorem pairRevision_contents_witness :
    (smAdapter.listVersions fixtureEnv (smAdapter.new false) projP).1 = .ok fixtureList ∧
    (smAdapter.pairRevision fixtureEnv (smAdapter.new false) projP "A").1 =
      .rev "A" :: fixtureList.filter fun x =>
        match x with
        | .paired pv => decide (pv.Underlying = "A")
        | _ => false :=
  ⟨rfl, (pairRevision_contents (constSM fixtureList) refSort (smAdapter.new false) projP
    "A").1 fixtureList rfl⟩

/-- C17: `vtu(id, v)` is `pairRevision(id, v)` when `v` is a Revision,
`pairRevision(id, v.Underlying())` when `v` is a PairedVersion,
`pairRevision(id, pv.Underlying())`, run after the pairing, when `v` is an
UnpairedVersion and `pv = pairVersion(id, v)` is non-nil, and the one-element
union `[v]` when `v` is an UnpairedVersion and `pairVersion(id, v)` is nil. -/
theorem vtu_cases (E : Env) (a : smAdapter) (id : ProjectIdentifier) :
    (∀ r : Revision, smAdapter.vtu E a id (.single (.rev r)) = smAdapter.pairRevision E a id r) ∧
    (∀ p : versionPair,
      smAdapter.vtu E a id (.single (.paired p)) = smAdapter.pairRevision E a id p.Underlying) ∧
    (∀ (u : UnpairedVersion) (pv : versionPair),
      (smAdapter.pairVersion E a id u).1 = some pv →
      smAdapter.vtu E a id (.single (.unpaired u)) =
        smAdapter.pairRevision E (smAdapter.pairVersion E a id u).2 id pv.Underlying) ∧
    (∀ u : UnpairedVersion, (smAdapter.pairVersion E a id u).1 = none →
      smAdapter.vtu E a id (.single (.unpaired u)) =
        ([.unpaired u], (smAdapter.pairVersion E a id u).2)) := by
  refine ⟨fun _ => rfl, fun _ => rfl, ?_, ?_⟩
  · intro u pv h
    simp only [smAdapter.vtu]
    cases hp : smAdapter.pairVersion E a id u with
    | mk o a1 =>
      rw [hp] at h
      simp only at h
      subst h
      rfl
  · intro u h
    simp only [smAdapter.vtu]
    cases hp : smAdapter.pairVersion E a id u with
    | mk o a1 =>
      rw [hp] at h
      simp only at h
      subst h
      rfl

theorem vtu_cases_witness :
    (smAdapter.pairVersion { ops := specOps, sm := failSM, sort := refSort }
      (smAdapter.new false) projP (.branchVersion "master")).1 = none ∧
    (smAdapter.vtu { ops := specOps, sm := failSM, sort := refSort } (smAdapter.new false) projP
      (.single (.unpaired (.branchVersion "master")))).1 = [.unpaired (.branchVersion "master")] :=
  ⟨rfl, congrArg Prod.fst
    ((vtu_cases { ops := specOps, sm := failSM, sort := refSort } (smAdapter.new false)
      projP).2.2.2 (.branchVersion "master") rfl)⟩

/-- C18: for a `versionTypeUnion` `av` and a constraint `c` that is not a
union, `av.Intersect(c)` is `m.Intersect(c)` for the first member `m`, in
member order, whose intersection with `c` is not `none`, and it is `none`
exactly when the intersection of every member with `c` is `none`, as for the
empty union.  When `c` is a union, the same holds over the pairs `(m, m2)` of
members, enumerated with the members of `av` as the outer loop and those of `c`
as the inner loop. -/
theorem union_intersect_first (L : LocalOps) (av : List Ver) :
    (∀ c : Constraint, (∀ av2, c ≠ .version (.union av2)) →
      (∀ l1 m l2, av = l1 ++ m :: l2 →
        (∀ y ∈ l1, Constraint.Intersect L (Ver.toC y) c = .noneConstraint) →
        Constraint.Intersect L (Ver.toC m) c ≠ .noneConstraint →
        versionTypeUnion.Intersect L av c = Constraint.Intersect L (Ver.toC m) c) ∧
      (versionTypeUnion.Intersect L av c = .noneConstraint ↔
        ∀ m ∈ av, Constraint.Intersect L (Ver.toC m) c = .noneConstraint)) ∧
    (∀ c : Constraint, versionTypeUnion.Intersect L [] c = .noneConstraint) ∧
    (∀ av2 : List Ver,
      (∀ l1 pr l2, List.product av av2 = l1 ++ pr :: l2 →
        (∀ q ∈ l1, Constraint.Intersect L (Ver.toC q.1) (Ver.toC q.2) = .noneConstraint) →
        Constraint.Intersect L (Ver.toC pr.1) (Ver.toC pr.2) ≠ .noneConstraint →
        versionTypeUnion.Intersect L av (.version (.union av2)) =
          Constraint.Intersect L (Ver.toC pr.1) (Ver.toC pr.2)) ∧
      (versionTypeUnion.Intersect L av (.version (.union av2)) = .noneConstraint ↔
        ∀ pr ∈ List.product av av2,
          Constraint.Intersect L (Ver.toC pr.1) (Ver.toC pr.2) = .noneConstraint)) := by
  refine ⟨?_, ?_, ?_⟩
  · intro c hc
    rw [union_intersect_single_loop L av c hc]
    constructor
    · intro l1 m l2 he hn hm
      rw [he]
      exact firstNonNone_first _ l1 l2 m hn hm
    · exact firstNonNone_eq_none_iff _ av
  · intro c
    cases c with
    | version v => cases v <;> rfl
    | semverConstraint r => rfl
    | noneConstraint => rfl
    | anyConstraint => rfl
  · intro av2
    rw [union_intersect_pair_loop L av av2]
    constructor
    · intro l1 pr l2 he hn hm
      rw [he]
      exact firstNonNone_first _ l1 l2 pr hn hm
    · exact firstNonNone_eq_none_iff _ _

theorem union_intersect_first_witness :
    (∀ av2, Constraint.anyConstraint ≠ .version (.union av2)) ∧
    [Ver.rev "A", masterB] = [] ++ Ver.rev "A" :: [masterB] ∧
    versionTypeUnion.Intersect specOps [.rev "A", masterB] .anyConstraint =
      Constraint.Intersect specOps (Ver.toC (.rev "A")) .anyConstraint :=
  ⟨fun _ h => (nomatch h), rfl,
    ((union_intersect_first specOps [.rev "A", masterB]).1 .anyConstraint
      (fun _ h => (nomatch h))).1 [] (.rev "A") [masterB] rfl
      (fun _ h => (nomatch h)) (fun h => (nomatch h))⟩

/-- C20: the doc comment of `versionTypeUnion.Intersect` says that the union
always returns the input constraint, but the code returns `rc`, the result of
the member's own `Intersect`.  With the union of revision `A` alone and `any`
as the input, the result is revision `A`: it is neither `none` nor the input.
With two unions (here the unions that `intersect` coerces `master` and
revision `B` to) the result is the intersection of two members and not the
input union. -/
theorem union_intersect_returns_member :
    versionTypeUnion.Intersect specOps [.rev "A"] .anyConstraint = Ver.toC (.rev "A") ∧
    versionTypeUnion.Intersect specOps [.rev "A"] .anyConstraint ≠ .anyConstraint ∧
    versionTypeUnion.Intersect specOps [.rev "A"] .anyConstraint ≠ .noneConstraint ∧
    versionTypeUnion.Intersect specOps [.rev "B", masterB] (.version (.union [.rev "B", masterB]))
      = Ver.toC (.rev "B") ∧
    (smAdapter.intersect fixtureEnv (smAdapter.new false) projP
      (Ver.toC (.unpaired (.branchVersion "master"))) (Ver.toC (.rev "B"))).1 =
      Ver.toC (.rev "B") :=
  ⟨rfl, fun h => (nomatch h), fun h => (nomatch h), rfl, rfl⟩

/-- C21, counterexample: `listVersions` sorts with `sort.Sort`, which is not
stable.  The version list holds the bare tag `v1.0.0` first and the same tag
paired with revision `A` second, two elements that are equal under the
ordering, then v1.5.0, v1.4.0, v1.3.0, v1.2.0 and v2.0.0.  On these seven
elements `sort.Sort` of the Go releases 1.7 to 1.18 starts with the pass with
gap 6: `Less(6, 0)` holds, v2.0.0 being the greater semver, so the bare tag
is swapped to the end of the slice, behind its paired form, and the insertion
sort that follows keeps it there.  The upgrade sort returns the paired tag
before the bare tag. -/
theorem listVersions_not_stable :
    tieInput7.length ≤ 12 ∧
    tieInput7.take 2 = [bareV100, pairedV100] ∧
    Tied upgradeVersionSorter.Less bareV100 pairedV100 ∧
    (smAdapter.listVersions { ops := specOps, sm := constSM tieInput7, sort := sortSmall }
      (smAdapter.new false) projP).1 =
      .ok [semTag 2 0 0 "", semTag 1 5 0 "", semTag 1 4 0 "", semTag 1 3 0 "",
        semTag 1 2 0 "", pairedV100, bareV100] :=
  ⟨by decide, rfl, ⟨rfl, rfl⟩, rfl⟩

/-- C21, amended: the sort that `listVersions` applies is `sort.Sort`, which
orders the list and promises nothing on ties.  For every input list, either
direction and every sort that meets the contract, the returned list is a
permutation of the input in ascending order of `Less`, and it is determined up
to the order of tied elements: the lists that two such sorts return are equal
under the ordering position by position.  When no two different elements of the
input are equal under the ordering, every such sort, a stable one included,
returns the same list. -/
theorem listVersions_sorted_up_to_ties (L : LocalOps) (sm : SourceManager) (a : smAdapter)
    (id : ProjectIdentifier) (vl : List Ver)
    (sort1 sort2 : (Ver → Ver → Bool) → List Ver → List Ver)
    (h1 : SortContract sort1) (h2 : SortContract sort2)
    (hmiss : a.vlists (smAdapter.key id) = none)
    (hok : sm.ListVersions a.calls (smAdapter.key id) = .ok vl) :
    ∃ l1 l2,
      (smAdapter.listVersions { ops := L, sm := sm, sort := sort1 } a id).1 = .ok l1 ∧
      (smAdapter.listVersions { ops := L, sm := sm, sort := sort2 } a id).1 = .ok l2 ∧
      l1.Perm vl ∧ l2.Perm vl ∧
      l1.Pairwise (fun x y => directedLess a.sortdown y x = false) ∧
      l2.Pairwise (fun x y => directedLess a.sortdown y x = false) ∧
      List.Forall₂ (Tied (directedLess a.sortdown)) l1 l2 ∧
      ((∀ x ∈ vl, ∀ y ∈ vl, Tied (directedLess a.sortdown) x y → x = y) → l1 = l2) := by
  have p1 := h1.perm (directedLess a.sortdown) vl
  have p2 := h2.perm (directedLess a.sortdown) vl
  have s1 := h1.sorted (directedLess a.sortdown) vl (directedLess_strictWeak _)
  have s2 := h2.sorted (directedLess a.sortdown) vl (directedLess_strictWeak _)
  have ht := sorted_tied a.sortdown _ _ (p1.trans p2.symm) s1 s2
  refine ⟨sort1 (directedLess a.sortdown) vl, sort2 (directedLess a.sortdown) vl,
    listVersions_miss_directed { ops := L, sm := sm, sort := sort1 } a id vl hmiss hok,
    listVersions_miss_directed { ops := L, sm := sm, sort := sort2 } a id vl hmiss hok,
    p1, p2, s1, s2, ht, ?_⟩
  intro hno
  exact eq_of_forall₂_tied _ _ _ ht fun x hx y hy =>
    hno x (p1.mem_iff.mp hx) y (p2.mem_iff.mp hy)

theorem listVersions_sorted_up_to_ties_witness :
    SortContract refSort ∧ SortContract sortSmall ∧
    (smAdapter.new false).vlists (smAdapter.key projP) = none ∧
    (constSM tieInput7).ListVersions (smAdapter.new false).calls (smAdapter.key projP) =
      .ok tieInput7 ∧
    ∃ l1 l2,
      (smAdapter.listVersions { ops := specOps, sm := constSM tieInput7, sort := refSort }
        (smAdapter.new false) projP).1 = .ok l1 ∧
      (smAdapter.listVersions { ops := specOps, sm := constSM tieInput7, sort := sortSmall }
        (smAdapter.new false) projP).1 = .ok l2 ∧
      l1.Perm tieInput7 ∧ l2.Perm tieInput7 ∧
      l1.Pairwise (fun x y => directedLess (smAdapter.new false).sortdown y x = false) ∧
      l2.Pairwise (fun x y => directedLess (smAdapter.new false).sortdown y x = false) ∧
      List.Forall₂ (Tied (directedLess (smAdapter.new false).sortdown)) l1 l2 ∧
      ((∀ x ∈ tieInput7, ∀ y ∈ tieInput7,
        Tied (directedLess (smAdapter.new false).sortdown) x y → x = y) → l1 = l2) :=
  ⟨refSort_contract, sortSmall_contract, rfl, rfl,
    listVersions_sorted_up_to_ties specOps (constSM tieInput7) (smAdapter.new false) projP
      tieInput7 refSort sortSmall refSort_contract sortSmall_contract rfl rfl⟩

end Vsolver
